import Mathlib

/-!
Verification of the amino-acid feature-table builder in
`protmodel/aafeatures.py` (`_res_to_feature_helper` and its two preset
wrappers `JTTP01dist` and `AANDXred`).

Embedding choices, stated once here:

* Python/numpy `float32` values are modelled as `PF`: an exact rational
  (`PF.fin q`) or a collapsed non-finite marker `PF.nonfin` standing for
  IEEE `nan`/`inf`.  Rounding is ignored (arithmetic is exact), which is
  the usual idealisation: all the properties below are either exact
  identities of the dataflow or tolerance statements that exact
  arithmetic satisfies trivially.  Division by a zero sum — the one
  place the real code produces non-finite values (numpy emits a
  `RuntimeWarning`, not an exception, and returns `nan`/`inf`) — is
  modelled by `PF.div _ (PF.fin 0) = PF.nonfin`.  Dividing a finite
  value by `nonfin` is also mapped to `nonfin`; this case is unreachable
  in the builder because every vector entering the normalisation loop is
  finite (parsed literals, the uniform/zero `X`, and means of finite
  vectors).

* The Python dict `aa_to_aadist` maps residue strings to *references*
  to numpy arrays.  No array is ever mutated in place by this code
  (every numpy operation used allocates a fresh array), so references
  are modelled by tagging each allocated vector with a fresh address:
  `Store.dict` is an insertion-ordered association list from key to
  `(address, value)`, and `Store.next` is the allocation counter.
  Aliasing (two keys bound to the same array object) is address
  equality.  Plain assignment `d[k2] = d[k1]` copies the address.

* Fallible Python statements become `Except Err`:
  `Err.indexError` for `linearr[0]` / `line[0]` on an empty sequence,
  `Err.valueError tok` for `float(tok)` on a malformed token,
  `Err.keyError k` for a missing dict key,
  `Err.broadcastError` for `np.mean` over two arrays of different
  lengths, and `Err.zeroDivisionError` for Python's `1.0/0`.

* `float(tok)` is modelled by `pyFloat`, covering the finite decimal
  literal fragment (optional sign, digits with optional fraction,
  optional exponent) actually used by the embedded tables; the exotic
  literals Python additionally accepts (`inf`, `nan`, underscores) are
  mapped to a parse failure.

* Line iteration over `io.StringIO` yields each line with its trailing
  newline kept (so a yielded line is never the empty string), matching
  `splitLines`.  `str.split()` with no argument is `pySplit`: split on
  runs of whitespace, discarding empty fields.
-/

namespace Protmodel

/-- Model of a numpy float32 value: exact rational, or a collapsed
non-finite marker standing for IEEE nan/inf. -/
inductive PF where
  | fin (q : ℚ)
  | nonfin
deriving DecidableEq

/-- Addition; any non-finite operand contaminates the result. -/
def PF.add : PF → PF → PF
  | PF.fin a, PF.fin b => PF.fin (a + b)
  | _, _ => PF.nonfin

/-- Division; a zero divisor yields a non-finite result (numpy returns
nan or inf and only warns).  Non-finite operands stay non-finite; the
`fin / nonfin` case (which IEEE could make finite, e.g. `1/inf = 0`)
never arises in the builder because divisors are sums of finite
vectors. -/
def PF.div : PF → PF → PF
  | PF.fin a, PF.fin b => if b = 0 then PF.nonfin else PF.fin (a / b)
  | _, _ => PF.nonfin

/-- Model of `numpy.ndarray.sum()` over a vector. -/
def PF.sum (v : List PF) : PF := v.foldl PF.add (PF.fin 0)

/-- Exceptions the helper can raise, mirroring the Python exceptions. -/
inductive Err where
  | indexError
  | valueError (tok : List Char)
  | keyError (k : List Char)
  | broadcastError
  | zeroDivisionError
deriving DecidableEq

instance {ε α : Type} [DecidableEq ε] [DecidableEq α] :
    DecidableEq (Except ε α) := fun x y =>
  match x, y with
  | Except.ok a, Except.ok b =>
      if h : a = b then isTrue (by rw [h]) else isFalse (by simp [h])
  | Except.ok _, Except.error _ => isFalse (by simp)
  | Except.error _, Except.ok _ => isFalse (by simp)
  | Except.error e, Except.error f =>
      if h : e = f then isTrue (by rw [h]) else isFalse (by simp [h])

/-- One dict binding: residue key, array address, array value. -/
abbrev Entry := List Char × Nat × List PF

/-- Model of the Python dict `aa_to_aadist` together with the array
allocation counter: insertion-ordered bindings from key to a reference
(address) and the referenced array's value. -/
structure Store where
  next : Nat
  dict : List Entry
deriving DecidableEq

/-- Python dict assignment `d[k] = ref`: replace in place if the key is
bound, else append (insertion order). -/
def dictSet : List Entry → List Char → Nat × List PF → List Entry
  | [], k, av => [(k, av)]
  | p :: rest, k, av =>
      if p.1 = k then (k, av) :: rest else p :: dictSet rest k av

/-- Python dict lookup `d[k]` (as an option). -/
def dictFind : List Entry → List Char → Option (Nat × List PF)
  | [], _ => none
  | p :: rest, k => if p.1 = k then some p.2 else dictFind rest k

/-- Bind `k` to a freshly allocated array holding `v`. -/
def Store.set (st : Store) (k : List Char) (v : List PF) : Store :=
  ⟨st.next + 1, dictSet st.dict k (st.next, v)⟩

/-- Bind `k` to an existing array reference (Python `d[k2] = d[k1]`):
the address is copied, no allocation happens. -/
def Store.setRef (st : Store) (k : List Char) (av : Nat × List PF) : Store :=
  ⟨st.next, dictSet st.dict k av⟩

/-- Lookup returning the (address, value) pair. -/
def Store.getEntry (st : Store) (k : List Char) : Option (Nat × List PF) :=
  dictFind st.dict k

/-- Lookup returning the array value only. -/
def Store.getV (st : Store) (k : List Char) : Option (List PF) :=
  (dictFind st.dict k).map (·.2)

/-- Lookup returning the array address only (object identity). -/
def Store.getAddr (st : Store) (k : List Char) : Option Nat :=
  (dictFind st.dict k).map (·.1)

/-- The keys of the store, in insertion order. -/
def Store.keys (st : Store) : List (List Char) := st.dict.map (·.1)

/-- Python `str.isspace` characters relevant to `str.split()`. -/
def isPySpace (c : Char) : Bool :=
  c = ' ' ∨ c = '\t' ∨ c = '\n' ∨ c = '\r' ∨ c = '\x0b' ∨ c = '\x0c'

/-- Helper for `pySplit`: accumulate the current token (reversed). -/
def pySplitAux : List Char → List Char → List (List Char)
  | [], acc => if acc.isEmpty then [] else [acc.reverse]
  | c :: cs, acc =>
      if isPySpace c then
        if acc.isEmpty then pySplitAux cs []
        else acc.reverse :: pySplitAux cs []
      else pySplitAux cs (c :: acc)

/-- Python `line.split()`: split on runs of whitespace, dropping empty
fields. -/
def pySplit (l : List Char) : List (List Char) := pySplitAux l []

/-- Helper for `splitLines`: accumulate the current line (reversed). -/
def splitLinesAux : List Char → List Char → List (List Char)
  | [], acc => if acc.isEmpty then [] else [acc.reverse]
  | c :: cs, acc =>
      if c = '\n' then (acc.reverse ++ ['\n']) :: splitLinesAux cs []
      else splitLinesAux cs (c :: acc)

/-- Iteration over `io.StringIO(s)`: the lines of `s`, each keeping its
trailing newline; a final fragment without a newline is yielded too, so
every yielded line is nonempty. -/
def splitLines (s : List Char) : List (List Char) := splitLinesAux s []

/-- Numeric value of a digit string. -/
def natOfDigits (ds : List Char) : Nat :=
  ds.foldl (fun n c => 10 * n + (c.toNat - 48)) 0

/-- Take the maximal digit prefix. -/
def takeDigits : List Char → List Char × List Char
  | [] => ([], [])
  | c :: cs =>
      if c.isDigit then
        let p := takeDigits cs
        (c :: p.1, p.2)
      else ([], c :: cs)

/-- Parse an unsigned decimal mantissa `digits [. digits]` or
`. digits`, returning its exact value and the rest of the input. -/
def parseMantissa (cs : List Char) : Option (ℚ × List Char) :=
  let p := takeDigits cs
  match p.2 with
  | '.' :: r2 =>
      let f := takeDigits r2
      if p.1.isEmpty ∧ f.1.isEmpty then none
      else some ((natOfDigits p.1 : ℚ)
                  + (natOfDigits f.1 : ℚ) / ((10 : ℚ) ^ f.1.length), f.2)
  | _ => if p.1.isEmpty then none else some ((natOfDigits p.1 : ℚ), p.2)

/-- Parse an optional exponent `e/E [sign] digits`, returning the scale
factor it denotes and the rest of the input. -/
def parseExpPart (cs : List Char) : Option (ℚ × List Char) :=
  match cs with
  | [] => some (1, [])
  | c :: rest =>
      if c = 'e' ∨ c = 'E' then
        match rest with
        | '+' :: r2 =>
            let d := takeDigits r2
            if d.1.isEmpty then none
            else some ((10 : ℚ) ^ natOfDigits d.1, d.2)
        | '-' :: r2 =>
            let d := takeDigits r2
            if d.1.isEmpty then none
            else some (((10 : ℚ) ^ natOfDigits d.1)⁻¹, d.2)
        | _ =>
            let d := takeDigits rest
            if d.1.isEmpty then none
            else some ((10 : ℚ) ^ natOfDigits d.1, d.2)
      else some (1, cs)

/-- Model of Python `float(tok)` on the finite decimal fragment:
optional sign, mantissa, optional exponent; the whole token must be
consumed.  Exotic accepted spellings (`inf`, `nan`, underscores) are
modelled as parse failures; the embedded tables use none of them. -/
def pyFloat (tok : List Char) : Option ℚ :=
  let sb : ℚ × List Char :=
    match tok with
    | '+' :: r => (1, r)
    | '-' :: r => (-1, r)
    | _ => (1, tok)
  match parseMantissa sb.2 with
  | none => none
  | some (m, r1) =>
      match parseExpPart r1 with
      | none => none
      | some (e, r2) => if r2.isEmpty then some (sb.1 * m * e) else none

/-- Model of the character constant `MISSINGAA = '.'`. -/
def MISSINGAA : List Char := ['.']

/-- Parse the numeric fields `linearr[1:]` of a data line:
`[ float(x) for x in linearr[1:] ]`, failing on the first malformed
token. -/
def parseFloats : List (List Char) → Except Err (List PF)
  | [] => Except.ok []
  | t :: ts =>
      match pyFloat t with
      | some q =>
          match parseFloats ts with
          | Except.ok rest => Except.ok (PF.fin q :: rest)
          | Except.error e => Except.error e
      | none => Except.error (Err.valueError t)

/-- One iteration of the parsing loop: skip comment lines whose first
character is `#`; otherwise split, take `linearr[0]` as the key
(raising `IndexError` if the line held only whitespace), parse the
floats, bind the key to a fresh array, and record its size as the new
`feature_count`. -/
def parseLine (st : Store) (fc : Nat) (line : List Char) :
    Except Err (Store × Nat) :=
  match line with
  | [] => Except.error Err.indexError
  | c :: _ =>
      if c = '#' then Except.ok (st, fc)
      else
        match pySplit line with
        | [] => Except.error Err.indexError
        | aa :: toks =>
            match parseFloats toks with
            | Except.ok vals => Except.ok (st.set aa vals, vals.length)
            | Except.error e => Except.error e

/-- The whole parsing loop over the lines of the feature string,
starting from the empty dict and `feature_count = 0`. -/
def parseAll (lines : List (List Char)) : Except Err (Store × Nat) :=
  lines.foldlM (fun p l => parseLine p.1 p.2 l) (⟨0, []⟩, 0)

/-- Dict lookup that raises `KeyError` like Python's `d[k]`. -/
def lookupE (st : Store) (k : List Char) : Except Err (Nat × List PF) :=
  match st.getEntry k with
  | some x => Except.ok x
  | none => Except.error (Err.keyError k)

/-- Elementwise mean of two equal-length vectors. -/
def meanVec (a b : List PF) : List PF :=
  List.zipWith (fun x y => (PF.add x y).div (PF.fin 2)) a b

/-- Model of `np.mean([a, b], axis=0)`: elementwise `(a+b)/2`, raising
if the two arrays cannot be broadcast together. -/
def npMean2 (a b : List PF) : Except Err (List PF) :=
  if a.length = b.length then Except.ok (meanVec a b)
  else Except.error Err.broadcastError

/-- The tail of the expansion, lines 150-155 of the source: `B`, `J`,
`Z` bound to fresh elementwise means of `(D,N)`, `(I,L)`, `(E,Q)`. -/
def expandTail (st3 : Store) : Except Err Store := do
  let dd ← lookupE st3 ['D']
  let nn ← lookupE st3 ['N']
  let bb ← npMean2 dd.2 nn.2
  let st4 := st3.set ['B'] bb
  let ii ← lookupE st4 ['I']
  let ll ← lookupE st4 ['L']
  let jj ← npMean2 ii.2 ll.2
  let st5 := st4.set ['J'] jj
  let ee ← lookupE st5 ['E']
  let qq ← lookupE st5 ['Q']
  let zz ← npMean2 ee.2 qq.2
  pure (st5.set ['Z'] zz)

/-- The synonym and ambiguity expansion, lines 135-155 of the source:
`U = C` and `O = K` by reference copy, `X` from the `average` flag
(`np.full(fc, 1.0/fc)` or `np.full(fc, 0.0)`), then the `B`, `J`, `Z`
assignments of `expandTail`. -/
def expandStage (st : Store) (fc : Nat) (average : Bool) :
    Except Err Store := do
  let c ← lookupE st ['C']
  let st1 := st.setRef ['U'] c
  let kk ← lookupE st1 ['K']
  let st2 := st1.setRef ['O'] kk
  let st3 ←
    if average then
      if fc = 0 then Except.error Err.zeroDivisionError
      else Except.ok (st2.set ['X'] (List.replicate fc (PF.fin (1 / (fc : ℚ)))))
    else Except.ok (st2.set ['X'] (List.replicate fc (PF.fin 0)))
  expandTail st3

/-- One entry of the normalisation loop body:
`aa_to_aadist[aa] / aa_to_aadist[aa].sum()`. -/
def normEntry (v : List PF) : List PF :=
  v.map (fun x => x.div (PF.sum v))

/-- One iteration of `for aa in aa_to_aadist.keys(): ...`: read the
current array for `aa`, divide it by its own sum, and rebind `aa` to
the freshly allocated quotient array.  The `none` branch is
unreachable (the loop only visits bound keys). -/
def normalizeStep (st : Store) (k : List Char) : Store :=
  match st.getV k with
  | some v => st.set k (normEntry v)
  | none => st

/-- The whole normalisation loop, visiting the keys in dict insertion
order.  No key is added or removed, so iterating over the initial key
list matches Python's live iteration. -/
def normalizeStore (st : Store) : Store :=
  st.keys.foldl normalizeStep st

/-- The full `_res_to_feature_helper`: parse, expand, optionally
normalise, then append the all-zero missing-marker entry. -/
def resToFeatureHelper (featureString : List Char)
    (normalize average : Bool) : Except Err Store := do
  let p ← parseAll (splitLines featureString)
  let st2 ← expandStage p.1 p.2 average
  let st3 := if normalize then normalizeStore st2 else st2
  pure (st3.set MISSINGAA (List.replicate p.2 (PF.fin 0)))

/-- The embedded JTT P(0.01) exchange-probability table. -/
def JTT_P01_DATA : String := "#\n# P(0.01), amino acid exchange data generated from SWISSPROT Release 22.0\n# Ref. Jones D.T., Taylor W.R. and Thornton J.M. (1992) CABIOS 8:275-282\n# A  R  N  D  C  Q  E  G  H  I  L  K  M  F  P  S  T  W  Y  V\nA 0.98754 0.00030 0.00023 0.00042 0.00011 0.00023 0.00065 0.00130 0.00006 0.00020 0.00028 0.00021 0.00013 0.00006 0.00098 0.00257 0.00275 0.00001 0.00003 0.00194\nR 0.00044 0.98974 0.00019 0.00008 0.00022 0.00125 0.00018 0.00099 0.00075 0.00012 0.00035 0.00376 0.00010 0.00002 0.00037 0.00069 0.00037 0.00018 0.00006 0.00012\nN 0.00042 0.00023 0.98720 0.00269 0.00007 0.00035 0.00036 0.00059 0.00089 0.00025 0.00011 0.00153 0.00007 0.00004 0.00008 0.00342 0.00135 0.00001 0.00022 0.00011\nD 0.00062 0.00008 0.00223 0.98954 0.00002 0.00020 0.00470 0.00095 0.00025 0.00006 0.00006 0.00015 0.00004 0.00002 0.00008 0.00041 0.00023 0.00001 0.00015 0.00020\nC 0.00043 0.00058 0.00015 0.00005 0.99432 0.00004 0.00003 0.00043 0.00016 0.00009 0.00021 0.00004 0.00007 0.00031 0.00007 0.00152 0.00025 0.00016 0.00067 0.00041\nQ 0.00044 0.00159 0.00037 0.00025 0.00002 0.98955 0.00198 0.00019 0.00136 0.00005 0.00066 0.00170 0.00010 0.00002 0.00083 0.00037 0.00030 0.00003 0.00008 0.00013\nE 0.00080 0.00015 0.00025 0.00392 0.00001 0.00130 0.99055 0.00087 0.00006 0.00006 0.00009 0.00105 0.00004 0.00002 0.00009 0.00021 0.00019 0.00001 0.00002 0.00029\nG 0.00136 0.00070 0.00035 0.00067 0.00012 0.00011 0.00074 0.99350 0.00005 0.00003 0.00006 0.00016 0.00003 0.00002 0.00013 0.00137 0.00020 0.00008 0.00003 0.00031\nH 0.00021 0.00168 0.00165 0.00057 0.00014 0.00241 0.00016 0.00017 0.98864 0.00009 0.00051 0.00027 0.00008 0.00016 0.00058 0.00050 0.00027 0.00001 0.00182 0.00008\nI 0.00029 0.00011 0.00020 0.00006 0.00003 0.00004 0.00007 0.00004 0.00004 0.98729 0.00209 0.00012 0.00113 0.00035 0.00005 0.00027 0.00142 0.00001 0.00010 0.00627\nL 0.00023 0.00019 0.00005 0.00004 0.00005 0.00029 0.00006 0.00005 0.00013 0.00122 0.99330 0.00008 0.00092 0.00099 0.00052 0.00040 0.00015 0.00007 0.00008 0.00118\nK 0.00027 0.00331 0.00111 0.00014 0.00001 0.00118 0.00111 0.00020 0.00011 0.00011 0.00013 0.99100 0.00015 0.00002 0.00011 0.00032 0.00060 0.00001 0.00003 0.00009\nM 0.00042 0.00023 0.00013 0.00008 0.00006 0.00018 0.00011 0.00011 0.00007 0.00255 0.00354 0.00038 0.98818 0.00017 0.00008 0.00020 0.00131 0.00003 0.00006 0.00212\nF 0.00011 0.00003 0.00004 0.00002 0.00015 0.00002 0.00003 0.00004 0.00009 0.00047 0.00227 0.00002 0.00010 0.99360 0.00009 0.00063 0.00007 0.00008 0.00171 0.00041\nP 0.00148 0.00038 0.00007 0.00008 0.00003 0.00067 0.00011 0.00018 0.00026 0.00006 0.00093 0.00012 0.00004 0.00007 0.99270 0.00194 0.00069 0.00001 0.00003 0.00015\nS 0.00287 0.00052 0.00212 0.00031 0.00044 0.00022 0.00018 0.00146 0.00017 0.00021 0.00054 0.00027 0.00007 0.00037 0.00144 0.98556 0.00276 0.00005 0.00020 0.00025\nT 0.00360 0.00033 0.00098 0.00020 0.00008 0.00021 0.00020 0.00024 0.00011 0.00131 0.00024 0.00060 0.00053 0.00005 0.00060 0.00324 0.98665 0.00002 0.00007 0.00074\nW 0.00007 0.00065 0.00003 0.00002 0.00023 0.00008 0.00006 0.00040 0.00002 0.00005 0.00048 0.00006 0.00006 0.00021 0.00003 0.00024 0.00007 0.99686 0.00023 0.00017\nY 0.00008 0.00010 0.00030 0.00024 0.00041 0.00010 0.00004 0.00006 0.00130 0.00017 0.00022 0.00005 0.00004 0.00214 0.00005 0.00043 0.00012 0.00010 0.99392 0.00011\nV 0.00226 0.00009 0.00007 0.00016 0.00012 0.00008 0.00027 0.00034 0.00003 0.00511 0.00165 0.00008 0.00076 0.00025 0.00012 0.00026 0.00066 0.00004 0.00005 0.98761\n"

/-- The embedded PCA-reduced AAindex property table. -/
def AANDX_RED_DATA : String := "#\n# amino acid properties generated from AAindex file aaindex1 Feb/13/2017\n# Ref. Kawashima, S., Pokarowski, P., Pokarowska, M., Kolinski, A.,\n#      Katayama, T., and Kanehisa, M.; AAindex: amino acid index\n#      database, progress report 2008. Nucleic Acids Res. 36, D202-D205\n#      (2008). [PMID:17998252]\n#  PC01    PC02    PC03    PC04    PC05    PC06    PC07    PC08    PC09    PC10    PC11\nA -0.0086 -0.1348  0.4616 -0.0693  0.1245 -0.0974  0.1758  0.0425  0.2240  0.1468 -0.0912\nR  0.1397  0.3740 -0.0290 -0.0032 -0.4022  0.3185  0.1816  0.3274 -0.1455  0.4340 -0.2502\nN  0.2467 -0.0020 -0.1151  0.2287 -0.0322 -0.1215 -0.1339 -0.3356 -0.0033 -0.2867 -0.1238\nD  0.3026  0.0614 -0.0023  0.0811  0.2997 -0.1711 -0.4602  0.0907 -0.1318  0.0992 -0.0255\nC -0.1503 -0.1747 -0.1930  0.4813  0.4372  0.4583  0.1800  0.2741 -0.0785 -0.2256 -0.1828\nQ  0.1270  0.2193  0.0536 -0.0103  0.0349  0.1008  0.0496 -0.0220  0.0287 -0.0725  0.4633\nE  0.2014  0.2729  0.3149 -0.1269  0.3462 -0.1152 -0.2567  0.2072 -0.1719  0.0386 -0.0749\nG  0.2582 -0.5223  0.0341  0.2440 -0.2662 -0.4457  0.2783  0.2544 -0.2370  0.1021  0.0928\nH  0.0023  0.2077 -0.1324  0.1457  0.0366 -0.0474  0.2001 -0.5542 -0.2003  0.2052 -0.2896\nI -0.3345 -0.1388  0.0757 -0.1287 -0.1306  0.0775 -0.2226  0.0080 -0.2496 -0.1335  0.1711\nL -0.2815 -0.0861  0.3156 -0.2161 -0.0557 -0.0854  0.0425 -0.0703  0.1102 -0.2310 -0.4548\nK  0.1992  0.3118  0.1614 -0.0439 -0.2640  0.0542  0.2554  0.0503  0.0733 -0.6013  0.1052\nM -0.2663  0.1253  0.0926  0.0394  0.2740 -0.0860  0.3623 -0.2100 -0.1066  0.1995  0.4918\nF -0.3107  0.0119 -0.1117 -0.0762 -0.0329 -0.1889 -0.0443 -0.1427 -0.0783  0.1215 -0.1622\nP  0.2705 -0.2761 -0.4103 -0.7141  0.2161  0.1550  0.2039 -0.0110 -0.0497 -0.0300 -0.0256\nS  0.2019 -0.1961  0.0362  0.1371 -0.0814  0.1391 -0.0797 -0.2065  0.3989  0.0274 -0.0091\nT  0.0746 -0.1420  0.0049  0.0502 -0.1324  0.2717 -0.2266 -0.1473  0.4486  0.2869  0.1665\nW -0.2810  0.2159 -0.3641  0.0102  0.0718 -0.3854  0.0207  0.3707  0.5100  0.0159 -0.0143\nY -0.1292  0.0776 -0.3624  0.0262 -0.2818 -0.1042 -0.2738 -0.0024 -0.1705 -0.1251  0.1127\nV -0.2620 -0.2049  0.1697 -0.0551 -0.1616  0.2734 -0.2523  0.0767 -0.1707  0.0286  0.1008\n"

/-- The exchangeability preset: `normalize=true, average=true`. -/
def JTTP01dist : Except Err Store :=
  resToFeatureHelper JTT_P01_DATA.data true true

/-- The reduced-property preset: `normalize=false, average=false`. -/
def AANDXred : Except Err Store :=
  resToFeatureHelper AANDX_RED_DATA.data false false

/-- The ordered encoding registry `AAENCODING_FNS`. -/
def AAENCODING_FNS : List (String × Except Err Store) :=
  [("AANDXred", AANDXred), ("JTTP01dist", JTTP01dist)]

/-! ## Stage observers

Projections of the pipeline used to state the claims without having to
spell out intermediate stores. -/

/-- The 20 standard residue codes, in the row order of the embedded
tables. -/
def STD20 : List (List Char) :=
  [['A'], ['R'], ['N'], ['D'], ['C'], ['Q'], ['E'], ['G'], ['H'], ['I'],
   ['L'], ['K'], ['M'], ['F'], ['P'], ['S'], ['T'], ['W'], ['Y'], ['V']]

/-- The residues the expansion stage looks up, in lookup order. -/
def REQ8 : List (List Char) :=
  [['C'], ['K'], ['D'], ['N'], ['I'], ['L'], ['E'], ['Q']]

/-- Whether the parse stage succeeds. -/
def parsedOk (s : List Char) : Bool :=
  match parseAll (splitLines s) with
  | Except.ok _ => true
  | Except.error _ => false

/-- The keys of the parsed base mapping (empty on parse failure). -/
def parsedKeys (s : List Char) : List (List Char) :=
  match parseAll (splitLines s) with
  | Except.ok p => p.1.keys
  | Except.error _ => []

/-- The `feature_count` the parse stage ends with (0 on failure). -/
def parsedFC (s : List Char) : Nat :=
  match parseAll (splitLines s) with
  | Except.ok p => p.2
  | Except.error _ => 0

/-- The parsed base mapping value at a key. -/
def parsedVal (s : List Char) (k : List Char) : Option (List PF) :=
  match parseAll (splitLines s) with
  | Except.ok p => p.1.getV k
  | Except.error _ => none

/-- Whether every parsed row has exactly `feature_count` fields. -/
def parsedLensUniform (s : List Char) : Bool :=
  match parseAll (splitLines s) with
  | Except.ok p => p.1.dict.all (fun e => e.2.2.length == p.2)
  | Except.error _ => false

/-- The value at a key after the expansion stage, before normalisation
and before the missing marker is added. -/
def preNormVal (s : List Char) (a : Bool) (k : List Char) :
    Option (List PF) :=
  match parseAll (splitLines s) with
  | Except.ok p =>
      match expandStage p.1 p.2 a with
      | Except.ok st2 => st2.getV k
      | Except.error _ => none
  | Except.error _ => none

/-- Whether parsing and expansion both succeed. -/
def expandOk (s : List Char) (a : Bool) : Bool :=
  match parseAll (splitLines s) with
  | Except.ok p =>
      match expandStage p.1 p.2 a with
      | Except.ok _ => true
      | Except.error _ => false
  | Except.error _ => false

/-- Whether the whole build succeeds. -/
def builtOk (s : List Char) (n a : Bool) : Bool :=
  match resToFeatureHelper s n a with
  | Except.ok _ => true
  | Except.error _ => false

/-- The final table value at a key (none on failure or absent key). -/
def helperVal (s : List Char) (n a : Bool) (k : List Char) :
    Option (List PF) :=
  match resToFeatureHelper s n a with
  | Except.ok tbl => tbl.getV k
  | Except.error _ => none

/-- The final table array address at a key: object identity of the
bound numpy array. -/
def helperAddr (s : List Char) (n a : Bool) (k : List Char) :
    Option Nat :=
  match resToFeatureHelper s n a with
  | Except.ok tbl => tbl.getAddr k
  | Except.error _ => none

/-- The number of entries of the final table. -/
def helperSize (s : List Char) (n a : Bool) : Option Nat :=
  match resToFeatureHelper s n a with
  | Except.ok tbl => some tbl.dict.length
  | Except.error _ => none

/-- Whether every entry of the final table has length `feature_count`. -/
def builtLensUniform (s : List Char) (n a : Bool) : Bool :=
  match resToFeatureHelper s n a with
  | Except.ok tbl => tbl.dict.all (fun e => e.2.2.length == parsedFC s)
  | Except.error _ => false

/-- Whether the components of a vector sum to 1 within the tolerance
1e-5 of the claim; a non-finite sum (NaN/inf) compares false, as IEEE
comparisons with NaN do. -/
def sumNear1 (v : List PF) : Bool :=
  match PF.sum v with
  | PF.fin q => decide (|q - 1| ≤ 1 / 100000)
  | PF.nonfin => false

/-- Whether every component of a vector is finite. -/
def allFinB (v : List PF) : Bool :=
  v.all (fun x => match x with | PF.fin _ => true | PF.nonfin => false)

/-! ## Concrete inputs used by witnesses and counterexamples -/

/-- A complete synthetic 20-row, 2-feature table in standard row order;
all row sums are nonzero. -/
def stdTableStr : String := "A 1 1\nR 1 1\nN 1 3\nD 1 1\nC 1 2\nQ 3 1\nE 1 1\nG 1 1\nH 1 1\nI 2 2\nL 2 0\nK 1 1\nM 1 1\nF 1 1\nP 1 1\nS 1 1\nT 1 1\nW 1 1\nY 1 1\nV 1 1\n"

/-- Character list of `stdTableStr`. -/
def stdChars : List Char := stdTableStr.data

/-- A synthetic table holding only the eight residues the expansion
stage needs; construction succeeds on it. -/
def req8Str : String := "C 1 2\nK 1 1\nD 1 1\nN 1 3\nI 2 2\nL 2 0\nE 1 1\nQ 3 1\n"

/-- Character list of `req8Str`. -/
def req8Chars : List Char := req8Str.data

/-- A table with a whitespace-only third line. -/
def blankLineStr : String := "C 1 2\n   \nK 1 1\n"

/-- Character list of `blankLineStr`. -/
def blankChars : List Char := blankLineStr.data

/-- A seven-row table lacking residue Q. -/
def missingQStr : String := "C 1 1\nK 1 1\nD 1 1\nN 1 1\nI 1 1\nL 1 1\nE 1 1\n"

/-- Character list of `missingQStr`. -/
def missingQChars : List Char := missingQStr.data

/-- The error the build ends with, if it fails. -/
def helperErr (s : List Char) (n a : Bool) : Option Err :=
  match resToFeatureHelper s n a with
  | Except.ok _ => none
  | Except.error e => some e

/-! ## Lemmas about the dict model -/

theorem dictFind_dictSet_self (d : List Entry) (k : List Char)
    (av : Nat × List PF) : dictFind (dictSet d k av) k = some av := by
  induction d with
  | nil => simp [dictSet, dictFind]
  | cons p rest ih =>
      by_cases h : p.1 = k
      · simp [dictSet, h, dictFind]
      · simp [dictSet, h, dictFind, ih]

theorem dictFind_dictSet_ne (d : List Entry) {k k' : List Char}
    (av : Nat × List PF) (h : k' ≠ k) :
    dictFind (dictSet d k av) k' = dictFind d k' := by
  induction d with
  | nil => simp [dictSet, dictFind, Ne.symm h]
  | cons p rest ih =>
      by_cases hp : p.1 = k
      · subst hp
        simp [dictSet, dictFind, Ne.symm h]
      · simp [dictSet, hp, dictFind, ih]

theorem keys_dictSet (d : List Entry) (k : List Char) (av : Nat × List PF) :
    (dictSet d k av).map (fun p => p.1) =
      if k ∈ d.map (fun p => p.1) then d.map (fun p => p.1)
      else d.map (fun p => p.1) ++ [k] := by
  induction d with
  | nil => simp [dictSet]
  | cons p rest ih =>
      by_cases h : p.1 = k
      · simp [dictSet, h]
      · have hne : ¬ k = p.1 := fun e => h e.symm
        by_cases hm : k ∈ rest.map (fun p => p.1) <;>
          simp [dictSet, h, hne, hm, ih]

theorem mem_dictSet {d : List Entry} {k : List Char} {av : Nat × List PF}
    {p : Entry} (h : p ∈ dictSet d k av) : p = (k, av) ∨ p ∈ d := by
  induction d with
  | nil => simpa [dictSet] using h
  | cons q rest ih =>
      by_cases hq : q.1 = k
      · simp only [dictSet, hq, if_true, List.mem_cons] at h
        rcases h with h | h
        · exact Or.inl h
        · exact Or.inr (List.mem_cons_of_mem _ h)
      · simp only [dictSet, hq, if_false, List.mem_cons] at h
        rcases h with h | h
        · exact Or.inr (by simp [h])
        · rcases ih h with h' | h'
          · exact Or.inl h'
          · exact Or.inr (List.mem_cons_of_mem _ h')

theorem dictFind_eq_none {d : List Entry} {k : List Char}
    (h : k ∉ d.map (fun p => p.1)) : dictFind d k = none := by
  induction d with
  | nil => rfl
  | cons p rest ih =>
      simp only [List.map_cons, List.mem_cons] at h
      push_neg at h
      simp [dictFind, Ne.symm h.1, ih h.2]

theorem dictFind_isSome_of_mem {d : List Entry} {k : List Char}
    (h : k ∈ d.map (fun p => p.1)) : ∃ av, dictFind d k = some av := by
  induction d with
  | nil => simp at h
  | cons p rest ih =>
      by_cases hp : p.1 = k
      · exact ⟨p.2, by simp [dictFind, hp]⟩
      · simp only [List.map_cons, List.mem_cons] at h
        rcases h with h | h
        · exact absurd h.symm hp
        · rcases ih h with ⟨av, hav⟩
          exact ⟨av, by simp [dictFind, hp, hav]⟩

theorem mem_of_dictFind {d : List Entry} {k : List Char} {av : Nat × List PF}
    (h : dictFind d k = some av) :
    (k, av) ∈ d ∧ k ∈ d.map (fun p => p.1) := by
  induction d with
  | nil => simp [dictFind] at h
  | cons p rest ih =>
      obtain ⟨p1, p2⟩ := p
      by_cases hp : p1 = k
      · subst hp
        simp only [dictFind, if_true, eq_self_iff_true, Option.some.injEq] at h
        subst h
        exact ⟨List.mem_cons_self _ _, by simp⟩
      · simp only [dictFind] at h
        rw [if_neg hp] at h
        rcases ih h with ⟨h1, h2⟩
        exact ⟨List.mem_cons_of_mem _ h1, by simp [h2]⟩

theorem dictFind_eq_of_mem {d : List Entry}
    (hnd : (d.map (fun p => p.1)).Nodup) {k : List Char}
    {av : Nat × List PF} (h : (k, av) ∈ d) : dictFind d k = some av := by
  induction d with
  | nil => simp at h
  | cons p rest ih =>
      simp only [List.map_cons, List.nodup_cons] at hnd
      rcases List.mem_cons.1 h with h | h
      · subst h; simp [dictFind]
      · have hk : k ∈ rest.map (fun p => p.1) :=
          List.mem_map.2 ⟨(k, av), h, rfl⟩
        have hp : p.1 ≠ k := fun e => hnd.1 (e ▸ hk)
        simp [dictFind, hp, ih hnd.2 h]

/-! ## Store-level lemmas -/

theorem getEntry_set_self (st : Store) (k : List Char) (v : List PF) :
    (st.set k v).getEntry k = some (st.next, v) :=
  dictFind_dictSet_self _ _ _

theorem getEntry_set_ne (st : Store) {k k' : List Char} (v : List PF)
    (h : k' ≠ k) : (st.set k v).getEntry k' = st.getEntry k' :=
  dictFind_dictSet_ne _ _ h

theorem getEntry_setRef_self (st : Store) (k : List Char)
    (av : Nat × List PF) : (st.setRef k av).getEntry k = some av :=
  dictFind_dictSet_self _ _ _

theorem getEntry_setRef_ne (st : Store) {k k' : List Char}
    (av : Nat × List PF) (h : k' ≠ k) :
    (st.setRef k av).getEntry k' = st.getEntry k' :=
  dictFind_dictSet_ne _ _ h

theorem getV_eq (st : Store) (k : List Char) :
    st.getV k = (st.getEntry k).map (fun av => av.2) := rfl

theorem getAddr_eq (st : Store) (k : List Char) :
    st.getAddr k = (st.getEntry k).map (fun av => av.1) := rfl

theorem getV_set_self (st : Store) (k : List Char) (v : List PF) :
    (st.set k v).getV k = some v := by
  simp [getV_eq, getEntry_set_self]

theorem getV_set_ne (st : Store) {k k' : List Char} (v : List PF)
    (h : k' ≠ k) : (st.set k v).getV k' = st.getV k' := by
  simp [getV_eq, getEntry_set_ne st v h]

theorem keys_set (st : Store) (k : List Char) (v : List PF) :
    (st.set k v).keys = if k ∈ st.keys then st.keys else st.keys ++ [k] :=
  keys_dictSet _ _ _

theorem keys_setRef (st : Store) (k : List Char) (av : Nat × List PF) :
    (st.setRef k av).keys = if k ∈ st.keys then st.keys else st.keys ++ [k] :=
  keys_dictSet _ _ _

/-- Well-formedness: the dict binds each key at most once.  It holds
for every store the builder constructs (dict keys are unique in
Python), and `dictSet` preserves it. -/
def Store.wfKeys (st : Store) : Prop := st.keys.Nodup

theorem wfKeys_dictSet {l : List (List Char)} {k : List Char}
    (h : l.Nodup) : (if k ∈ l then l else l ++ [k]).Nodup := by
  by_cases hm : k ∈ l
  · simpa [hm] using h
  · simp only [hm, if_false]
    exact List.Nodup.append h (List.nodup_singleton k)
      (fun a ha hb => hm ((List.mem_singleton.1 hb) ▸ ha))

theorem wfKeys_set {st : Store} (k : List Char) (v : List PF)
    (h : st.wfKeys) : (st.set k v).wfKeys := by
  rw [Store.wfKeys, keys_set]
  exact wfKeys_dictSet h

theorem wfKeys_setRef {st : Store} (k : List Char) (av : Nat × List PF)
    (h : st.wfKeys) : (st.setRef k av).wfKeys := by
  rw [Store.wfKeys, keys_setRef]
  exact wfKeys_dictSet h

/-! ## Except plumbing -/

theorem exPure {α : Type} (x : α) : (pure x : Except Err α) = Except.ok x := rfl

theorem exBind_ok {α β : Type} {m : Except Err α} {f : α → Except Err β}
    {b : β} : (m >>= f) = Except.ok b ↔
      ∃ a, m = Except.ok a ∧ f a = Except.ok b := by
  cases m <;> simp [Bind.bind, Except.bind]

theorem exBind_eq {α β : Type} {m : Except Err α} {f : α → Except Err β}
    {a : α} (h : m = Except.ok a) : (m >>= f) = f a := by
  subst h; rfl

theorem exBind_error {α β : Type} {m : Except Err α}
    {f : α → Except Err β} {e : Err} (h : m = Except.error e) :
    (m >>= f) = Except.error e := by
  subst h; rfl

/-! ## Parse-stage lemmas -/

theorem parseFloats_allFin : ∀ {ts : List (List Char)} {vals : List PF},
    parseFloats ts = Except.ok vals → allFinB vals = true := by
  intro ts
  induction ts with
  | nil =>
      intro vals h
      simp only [parseFloats, Except.ok.injEq] at h
      subst h
      rfl
  | cons t rest ih =>
      intro vals h
      simp only [parseFloats] at h
      split at h
      · split at h
        · simp only [Except.ok.injEq] at h
          subst h
          simpa [allFinB] using ih (by assumption)
        · simp at h
      · simp at h

/-- The invariant form of the parsing loop: any property of stores
preserved by binding a key to a freshly parsed (hence all-finite)
vector holds for the store the loop returns. -/
theorem foldParse_inv (P : Store → Prop)
    (hstep : ∀ (st : Store) (aa : List Char) (vals : List PF),
      P st → allFinB vals = true → P (st.set aa vals)) :
    ∀ (ls : List (List Char)) (st : Store) (fc : Nat) (r : Store × Nat),
      P st →
      List.foldlM (fun (p : Store × Nat) l => parseLine p.1 p.2 l) (st, fc) ls
        = Except.ok r → P r.1 := by
  intro ls
  induction ls with
  | nil =>
      intro st fc r hP h
      simp only [List.foldlM, exPure, Except.ok.injEq] at h
      rw [← h]
      exact hP
  | cons l rest ih =>
      intro st fc r hP h
      simp only [List.foldlM] at h
      rw [exBind_ok] at h
      obtain ⟨b, hb, hrest⟩ := h
      rcases l with _ | ⟨c, cs⟩
      · simp [parseLine] at hb
      · by_cases hc : c = '#'
        · simp only [parseLine, hc, if_true, Except.ok.injEq] at hb
          rw [← hb] at hrest
          exact ih st fc r hP hrest
        · simp only [parseLine, hc, if_false] at hb
          split at hb
          · simp at hb
          · split at hb
            · simp only [Except.ok.injEq] at hb
              rw [← hb] at hrest
              exact ih _ _ r (hstep st _ _ hP (parseFloats_allFin (by assumption))) hrest
            · simp at hb

/-- Every value bound by the parse stage is all-finite. -/
def storeAllFin (st : Store) : Prop := ∀ p ∈ st.dict, allFinB p.2.2 = true

theorem storeAllFin_set {st : Store} {aa : List Char} {vals : List PF}
    (hP : storeAllFin st) (hv : allFinB vals = true) :
    storeAllFin (st.set aa vals) := by
  intro p hp
  rcases mem_dictSet hp with h | h
  · rw [h]; exact hv
  · exact hP p h

theorem parseAll_wf {ls : List (List Char)} {st : Store} {fc : Nat}
    (h : parseAll ls = Except.ok (st, fc)) : st.wfKeys :=
  foldParse_inv Store.wfKeys (fun st aa vals hP _ => wfKeys_set aa vals hP)
    ls ⟨0, []⟩ 0 (st, fc) (by simp [Store.wfKeys, Store.keys]) h

theorem parseAll_allFin {ls : List (List Char)} {st : Store} {fc : Nat}
    (h : parseAll ls = Except.ok (st, fc)) : storeAllFin st :=
  foldParse_inv storeAllFin (fun st aa vals hP hv => storeAllFin_set hP hv)
    ls ⟨0, []⟩ 0 (st, fc) (fun p hp => absurd hp (by simp)) h

/-- Splitting the parsing loop at a list append. -/
theorem foldParse_append (l1 l2 : List (List Char)) (init : Store × Nat) :
    List.foldlM (fun (p : Store × Nat) l => parseLine p.1 p.2 l) init (l1 ++ l2)
      = (List.foldlM (fun (p : Store × Nat) l => parseLine p.1 p.2 l) init l1)
          >>= fun b =>
            List.foldlM (fun (p : Store × Nat) l => parseLine p.1 p.2 l) b l2 := by
  induction l1 generalizing init with
  | nil => simp only [List.nil_append, List.foldlM]; rfl
  | cons a rest ih =>
      simp only [List.cons_append, List.foldlM]
      cases hp : parseLine init.1 init.2 a with
      | error e => simp [Bind.bind, Except.bind]
      | ok b =>
          simp only [Bind.bind, Except.bind]
          exact ih b

/-! ## Blank-line lemmas -/

theorem pySplitAux_space {l : List Char}
    (h : ∀ c ∈ l, isPySpace c = true) : pySplitAux l [] = [] := by
  induction l with
  | nil => rfl
  | cons c cs ih =>
      have hc := h c (List.mem_cons_self _ _)
      simp [pySplitAux, hc, ih (fun x hx => h x (List.mem_cons_of_mem _ hx))]

theorem isPySpace_ne_hash {c : Char} (h : isPySpace c = true) : c ≠ '#' := by
  intro e
  subst e
  exact absurd h (by decide)

theorem parseLine_blank {st : Store} {fc : Nat} {l : List Char}
    (hne : l ≠ []) (hsp : ∀ c ∈ l, isPySpace c = true) :
    parseLine st fc l = Except.error Err.indexError := by
  rcases l with _ | ⟨c, cs⟩
  · exact absurd rfl hne
  · have hc : c ≠ '#' := isPySpace_ne_hash (hsp c (List.mem_cons_self _ _))
    have hs : pySplit (c :: cs) = [] := pySplitAux_space hsp
    rw [pySplit] at hs
    simp [parseLine, hc, pySplit, hs]

theorem foldParse_blank {l : List Char} (hne : l ≠ [])
    (hsp : ∀ c ∈ l, isPySpace c = true) :
    ∀ (ls : List (List Char)), l ∈ ls → ∀ init : Store × Nat,
      ∃ e, List.foldlM (fun (p : Store × Nat) l => parseLine p.1 p.2 l) init ls
        = Except.error e := by
  intro ls
  induction ls with
  | nil => intro hmem; simp at hmem
  | cons a rest ih =>
      intro hmem init
      rcases List.mem_cons.1 hmem with h | h
      · subst h
        refine ⟨Err.indexError, ?_⟩
        simp only [List.foldlM]
        exact exBind_error (parseLine_blank hne hsp)
      · cases hp : parseLine init.1 init.2 a with
        | error e =>
            refine ⟨e, ?_⟩
            simp only [List.foldlM]
            exact exBind_error hp
        | ok b =>
            rcases ih h b with ⟨e, he⟩
            refine ⟨e, ?_⟩
            simp only [List.foldlM]
            rw [exBind_eq hp]
            exact he

/-! ## Expansion-stage lemmas -/

/-- The explicit form of the store the expansion stage returns. -/
def expandedStore (st : Store) (fc : Nat) (a : Bool)
    (c kk : Nat × List PF) (bv jv zv : List PF) : Store :=
  (((((st.setRef ['U'] c).setRef ['O'] kk).set ['X']
      (List.replicate fc (if a then PF.fin (1 / (fc : ℚ)) else PF.fin 0))).set
        ['B'] bv).set ['J'] jv).set ['Z'] zv

theorem lookupE_ok {st : Store} {k : List Char} {av : Nat × List PF} :
    lookupE st k = Except.ok av ↔ st.getEntry k = some av := by
  rw [lookupE]
  cases h : st.getEntry k <;> simp

theorem lookupE_error_of_none {st : Store} {k : List Char}
    (h : st.getEntry k = none) :
    lookupE st k = Except.error (Err.keyError k) := by
  rw [lookupE, h]

/-- Successful `expandTail` decomposed: the six constituent residues
are bound in the incoming store, the paired constituents have equal
lengths, and the result is the three explicit mean assignments. -/
theorem expandTail_ok {st3 st2 : Store} (h : expandTail st3 = Except.ok st2) :
    ∃ dd nn ii ll ee qq,
      st3.getEntry ['D'] = some dd ∧ st3.getEntry ['N'] = some nn ∧
      st3.getEntry ['I'] = some ii ∧ st3.getEntry ['L'] = some ll ∧
      st3.getEntry ['E'] = some ee ∧ st3.getEntry ['Q'] = some qq ∧
      dd.2.length = nn.2.length ∧ ii.2.length = ll.2.length ∧
      ee.2.length = qq.2.length ∧
      st2 = ((st3.set ['B'] (meanVec dd.2 nn.2)).set ['J']
              (meanVec ii.2 ll.2)).set ['Z'] (meanVec ee.2 qq.2) := by
  rw [expandTail] at h
  simp only [exBind_ok, pure, Except.pure, Except.ok.injEq] at h
  obtain ⟨dd, hdd, nn, hnn, bb, hbb, ii, hii, ll, hll, jj, hjj,
    ee, hee, qq, hqq, zz, hzz, hfin⟩ := h
  rw [lookupE_ok] at hdd hnn hii hll hee hqq
  rw [getEntry_set_ne _ _ (by decide)] at hii hll
  rw [getEntry_set_ne _ _ (by decide), getEntry_set_ne _ _ (by decide)]
    at hee hqq
  rw [npMean2] at hbb hjj hzz
  split at hbb
  case isFalse => exact absurd hbb (by simp)
  case isTrue hlen1 =>
  split at hjj
  case isFalse => exact absurd hjj (by simp)
  case isTrue hlen2 =>
  split at hzz
  case isFalse => exact absurd hzz (by simp)
  case isTrue hlen3 =>
  simp only [Except.ok.injEq] at hbb hjj hzz
  refine ⟨dd, nn, ii, ll, ee, qq, hdd, hnn, hii, hll, hee, hqq,
    hlen1, hlen2, hlen3, ?_⟩
  rw [← hfin, ← hbb, ← hjj, ← hzz]

/-- Transport of `expandTail_ok` along the three preceding
assignments, whose keys `U`, `O`, `X` are distinct from the six
constituent residues. -/
theorem expandTailUOX {st : Store} {c kk : Nat × List PF} {xv : List PF}
    {st2 : Store}
    (htail : expandTail (((st.setRef ['U'] c).setRef ['O'] kk).set ['X'] xv)
      = Except.ok st2) :
    ∃ dd nn ii ll ee qq,
      st.getEntry ['D'] = some dd ∧ st.getEntry ['N'] = some nn ∧
      st.getEntry ['I'] = some ii ∧ st.getEntry ['L'] = some ll ∧
      st.getEntry ['E'] = some ee ∧ st.getEntry ['Q'] = some qq ∧
      dd.2.length = nn.2.length ∧ ii.2.length = ll.2.length ∧
      ee.2.length = qq.2.length ∧
      st2 = ((((((st.setRef ['U'] c).setRef ['O'] kk).set ['X'] xv).set
              ['B'] (meanVec dd.2 nn.2)).set ['J'] (meanVec ii.2 ll.2)).set
              ['Z'] (meanVec ee.2 qq.2)) := by
  obtain ⟨dd, nn, ii, ll, ee, qq, hdd, hnn, hii, hll, hee, hqq,
    hlen1, hlen2, hlen3, hres⟩ := expandTail_ok htail
  rw [getEntry_set_ne _ _ (by decide), getEntry_setRef_ne _ _ (by decide),
      getEntry_setRef_ne _ _ (by decide)] at hdd hnn hii hll hee hqq
  exact ⟨dd, nn, ii, ll, ee, qq, hdd, hnn, hii, hll, hee, hqq,
    hlen1, hlen2, hlen3, hres⟩

/-- Successful expansion decomposed: all eight base residues are bound
in the parsed store, the paired constituents have equal lengths, the
`average=true` path implies a nonzero `feature_count`, and the result
is the explicit six-assignment extension of the parsed store. -/
theorem expandStage_ok {st : Store} {fc : Nat} {a : Bool} {st2 : Store}
    (h : expandStage st fc a = Except.ok st2) :
    ∃ c kk dd nn ii ll ee qq,
      st.getEntry ['C'] = some c ∧ st.getEntry ['K'] = some kk ∧
      st.getEntry ['D'] = some dd ∧ st.getEntry ['N'] = some nn ∧
      st.getEntry ['I'] = some ii ∧ st.getEntry ['L'] = some ll ∧
      st.getEntry ['E'] = some ee ∧ st.getEntry ['Q'] = some qq ∧
      dd.2.length = nn.2.length ∧ ii.2.length = ll.2.length ∧
      ee.2.length = qq.2.length ∧ (a = true → fc ≠ 0) ∧
      st2 = expandedStore st fc a c kk (meanVec dd.2 nn.2)
              (meanVec ii.2 ll.2) (meanVec ee.2 qq.2) := by
  cases a with
  | false =>
      rw [expandStage] at h
      simp only [Bool.false_eq_true, if_false, exBind_ok] at h
      obtain ⟨c, hc, kk, hkk, st3, hst3, htail⟩ := h
      rw [lookupE_ok] at hc hkk
      rw [getEntry_setRef_ne _ _ (by decide)] at hkk
      simp only [Except.ok.injEq] at hst3
      subst hst3
      obtain ⟨dd, nn, ii, ll, ee, qq, hdd, hnn, hii, hll, hee, hqq,
        hlen1, hlen2, hlen3, hres⟩ := expandTailUOX htail
      exact ⟨c, kk, dd, nn, ii, ll, ee, qq, hc, hkk, hdd, hnn, hii, hll,
        hee, hqq, hlen1, hlen2, hlen3, by simp, by
          simpa [expandedStore] using hres⟩
  | true =>
      rw [expandStage] at h
      simp only [if_true] at h
      by_cases hfc : fc = 0
      · subst hfc
        simp [exBind_ok] at h
      · simp only [hfc, if_false, exBind_ok] at h
        obtain ⟨c, hc, kk, hkk, st3, hst3, htail⟩ := h
        rw [lookupE_ok] at hc hkk
        rw [getEntry_setRef_ne _ _ (by decide)] at hkk
        simp only [Except.ok.injEq] at hst3
        subst hst3
        obtain ⟨dd, nn, ii, ll, ee, qq, hdd, hnn, hii, hll, hee, hqq,
          hlen1, hlen2, hlen3, hres⟩ := expandTailUOX htail
        exact ⟨c, kk, dd, nn, ii, ll, ee, qq, hc, hkk, hdd, hnn, hii, hll,
          hee, hqq, hlen1, hlen2, hlen3, fun _ => hfc, by
            simpa [expandedStore] using hres⟩

/-! ## Full-pipeline decomposition -/

theorem helper_ok_decomp {s : List Char} {n a : Bool} {tbl : Store} :
    resToFeatureHelper s n a = Except.ok tbl ↔
      ∃ (p : Store × Nat) (st2 : Store),
        parseAll (splitLines s) = Except.ok p ∧
        expandStage p.1 p.2 a = Except.ok st2 ∧
        tbl = (if n then normalizeStore st2 else st2).set MISSINGAA
                (List.replicate p.2 (PF.fin 0)) := by
  constructor
  · intro h
    rw [resToFeatureHelper] at h
    simp only [exBind_ok, pure, Except.pure, Except.ok.injEq] at h
    obtain ⟨p, hp, st2, he, htbl⟩ := h
    exact ⟨p, st2, hp, he, htbl.symm⟩
  · rintro ⟨p, st2, hp, he, rfl⟩
    rw [resToFeatureHelper]
    simp only [hp, he, Bind.bind, Except.bind, pure, Except.pure]

theorem helper_eq_of_stages {s : List Char} {n a : Bool} {p : Store × Nat}
    {st2 : Store} (hp : parseAll (splitLines s) = Except.ok p)
    (he : expandStage p.1 p.2 a = Except.ok st2) :
    resToFeatureHelper s n a = Except.ok
      ((if n then normalizeStore st2 else st2).set MISSINGAA
        (List.replicate p.2 (PF.fin 0))) :=
  helper_ok_decomp.2 ⟨p, st2, hp, he, rfl⟩

theorem builtOk_of_stages {s : List Char} {n a : Bool} {p : Store × Nat}
    {st2 : Store} (hp : parseAll (splitLines s) = Except.ok p)
    (he : expandStage p.1 p.2 a = Except.ok st2) : builtOk s n a = true := by
  rw [builtOk, helper_eq_of_stages hp he]

theorem helperVal_of_stages {s : List Char} {n a : Bool} {p : Store × Nat}
    {st2 : Store} (k : List Char)
    (hp : parseAll (splitLines s) = Except.ok p)
    (he : expandStage p.1 p.2 a = Except.ok st2) :
    helperVal s n a k =
      ((if n then normalizeStore st2 else st2).set MISSINGAA
        (List.replicate p.2 (PF.fin 0))).getV k := by
  simp only [helperVal, helper_eq_of_stages hp he]

theorem helperAddr_of_stages {s : List Char} {n a : Bool} {p : Store × Nat}
    {st2 : Store} (k : List Char)
    (hp : parseAll (splitLines s) = Except.ok p)
    (he : expandStage p.1 p.2 a = Except.ok st2) :
    helperAddr s n a k =
      ((if n then normalizeStore st2 else st2).set MISSINGAA
        (List.replicate p.2 (PF.fin 0))).getAddr k := by
  simp only [helperAddr, helper_eq_of_stages hp he]

theorem preNormVal_of_stages {s : List Char} {a : Bool} {p : Store × Nat}
    {st2 : Store} (k : List Char)
    (hp : parseAll (splitLines s) = Except.ok p)
    (he : expandStage p.1 p.2 a = Except.ok st2) :
    preNormVal s a k = st2.getV k := by
  simp only [preNormVal, hp, he]

theorem preNormVal_some {s : List Char} {a : Bool} {k : List Char}
    {v : List PF} (h : preNormVal s a k = some v) :
    ∃ (p : Store × Nat) (st2 : Store),
      parseAll (splitLines s) = Except.ok p ∧
      expandStage p.1 p.2 a = Except.ok st2 ∧ st2.getV k = some v := by
  unfold preNormVal at h
  split at h
  next p hp =>
    split at h
    next st2 he => exact ⟨p, st2, hp, he, h⟩
    next e he => simp at h
  next e hp => simp at h

/-! ## Normalisation-loop lemmas -/

theorem getV_isSome_mem {st : Store} {k : List Char} {v : List PF}
    (h : st.getV k = some v) : k ∈ st.keys := by
  rw [Store.getV] at h
  cases hf : dictFind st.dict k with
  | none => rw [hf] at h; simp at h
  | some av => exact (mem_of_dictFind hf).2

theorem getV_normalizeStep_self {st : Store} {k : List Char} {v : List PF}
    (h : st.getV k = some v) :
    (normalizeStep st k).getV k = some (normEntry v) := by
  simp only [normalizeStep, h]
  exact getV_set_self st k (normEntry v)

theorem getV_normalizeStep_ne {st : Store} {k k' : List Char}
    (hne : k' ≠ k) : (normalizeStep st k).getV k' = st.getV k' := by
  cases h : st.getV k with
  | none => simp [normalizeStep, h]
  | some v => simp [normalizeStep, h, getV_set_ne st _ hne]

theorem keys_normalizeStep (st : Store) (k : List Char) :
    (normalizeStep st k).keys = st.keys := by
  cases h : st.getV k with
  | none => simp [normalizeStep, h]
  | some v =>
      have hk : k ∈ st.keys := getV_isSome_mem h
      simp [normalizeStep, h, keys_set, hk]

theorem foldNorm_getV_not_mem {ks : List (List Char)} {k : List Char}
    (h : k ∉ ks) : ∀ st : Store,
      (ks.foldl normalizeStep st).getV k = st.getV k := by
  induction ks with
  | nil => intro st; rfl
  | cons a rest ih =>
      intro st
      simp only [List.foldl_cons]
      rw [ih (fun hm => h (List.mem_cons_of_mem _ hm))]
      exact getV_normalizeStep_ne (fun e => h (e ▸ List.mem_cons_self a rest))

theorem foldNorm_getV_mem : ∀ (ks : List (List Char)), ks.Nodup →
    ∀ {k : List Char}, k ∈ ks → ∀ {st : Store} {v : List PF},
      st.getV k = some v →
      (ks.foldl normalizeStep st).getV k = some (normEntry v) := by
  intro ks
  induction ks with
  | nil => intro _ k hk; simp at hk
  | cons a rest ih =>
      intro hnd k hk st v hv
      simp only [List.foldl_cons]
      rcases List.mem_cons.1 hk with h | h
      · subst h
        rw [foldNorm_getV_not_mem (List.nodup_cons.1 hnd).1]
        exact getV_normalizeStep_self hv
      · have hka : k ≠ a := fun e => (List.nodup_cons.1 hnd).1 (e ▸ h)
        exact ih (List.nodup_cons.1 hnd).2 h
          ((getV_normalizeStep_ne hka).trans hv)

theorem keys_foldNorm : ∀ (ks : List (List Char)) (st : Store),
    (ks.foldl normalizeStep st).keys = st.keys := by
  intro ks
  induction ks with
  | nil => intro st; rfl
  | cons a rest ih =>
      intro st
      simp only [List.foldl_cons]
      rw [ih, keys_normalizeStep]

theorem keys_normalizeStore (st : Store) :
    (normalizeStore st).keys = st.keys :=
  keys_foldNorm _ _

theorem getV_normalizeStore {st : Store} (hnd : st.wfKeys) (k : List Char) :
    (normalizeStore st).getV k = (st.getV k).map normEntry := by
  cases hv : st.getV k with
  | some v =>
      rw [normalizeStore,
        foldNorm_getV_mem st.keys hnd (getV_isSome_mem hv) hv]
      rfl
  | none =>
      have hk : k ∉ st.keys := by
        intro hm
        rcases dictFind_isSome_of_mem hm with ⟨av, hav⟩
        rw [Store.getV, hav] at hv
        simp at hv
      rw [normalizeStore, foldNorm_getV_not_mem hk, hv]
      rfl

theorem mem_normalizeStore {st : Store} (hnd : st.wfKeys) {p : Entry}
    (hp : p ∈ (normalizeStore st).dict) :
    ∃ v, st.getV p.1 = some v ∧ p.2.2 = normEntry v := by
  have hw : (normalizeStore st).wfKeys := by
    rw [Store.wfKeys, keys_normalizeStore]
    exact hnd
  have hp' : (p.1, p.2) ∈ (normalizeStore st).dict := by
    rw [Prod.mk.eta]
    exact hp
  have hfind : dictFind (normalizeStore st).dict p.1 = some p.2 :=
    dictFind_eq_of_mem hw hp'
  have hgv : (normalizeStore st).getV p.1 = some p.2.2 := by
    rw [Store.getV, hfind]
    rfl
  rw [getV_normalizeStore hnd] at hgv
  cases hv : st.getV p.1 with
  | none => rw [hv] at hgv; simp at hgv
  | some v =>
      rw [hv] at hgv
      refine ⟨v, rfl, ?_⟩
      have hEq : normEntry v = p.2.2 := by simpa using hgv
      exact hEq.symm

/-! ## Sum lemmas -/

/-- The rational carried by a finite value (0 for non-finite ones;
only ever applied to finite values). -/
def unfin : PF → ℚ
  | PF.fin q => q
  | PF.nonfin => 0

theorem allFinB_mem {v : List PF} (hf : allFinB v = true) {x : PF}
    (hx : x ∈ v) : ∃ q, x = PF.fin q := by
  rw [allFinB] at hf
  have := List.all_eq_true.1 hf x hx
  cases x with
  | fin q => exact ⟨q, rfl⟩
  | nonfin => simp at this

theorem foldl_add_fin : ∀ {v : List PF}, allFinB v = true →
    ∀ acc : ℚ, v.foldl PF.add (PF.fin acc)
      = PF.fin (acc + (v.map unfin).sum) := by
  intro v
  induction v with
  | nil => intro _ acc; simp
  | cons x rest ih =>
      intro hf acc
      cases x with
      | nonfin => simp [allFinB] at hf
      | fin q =>
          have hf' : allFinB rest = true := by simpa [allFinB] using hf
          simp only [List.foldl_cons, PF.add, List.map_cons, List.sum_cons,
            unfin]
          rw [ih hf' (acc + q)]
          congr 1
          ring

theorem sum_eq_of_allFin {v : List PF} (hf : allFinB v = true) :
    PF.sum v = PF.fin ((v.map unfin).sum) := by
  rw [PF.sum, foldl_add_fin hf 0, zero_add]

theorem normEntry_zeroSum {v : List PF} (h : PF.sum v = PF.fin 0) :
    normEntry v = List.replicate v.length PF.nonfin := by
  rw [normEntry, h, List.eq_replicate_iff]
  refine ⟨by simp, ?_⟩
  intro b hb
  rcases List.mem_map.1 hb with ⟨x, hx, rfl⟩
  cases x <;> simp [PF.div]

theorem normEntry_length (v : List PF) :
    (normEntry v).length = v.length := by
  simp [normEntry]

theorem sum_map_div (l : List ℚ) (σ : ℚ) :
    (l.map (fun q => q / σ)).sum = l.sum / σ := by
  induction l with
  | nil => simp
  | cons q rest ih => simp [add_div, ih]

theorem sum_normEntry_one {v : List PF} (hf : allFinB v = true)
    (hz : PF.sum v ≠ PF.fin 0) : PF.sum (normEntry v) = PF.fin 1 := by
  have hσ := sum_eq_of_allFin hf
  have hσ0 : (v.map unfin).sum ≠ 0 := fun e => hz (by rw [hσ, e])
  have hmap : normEntry v
      = v.map (fun x => PF.fin (unfin x / (v.map unfin).sum)) := by
    rw [normEntry, hσ]
    apply List.map_congr_left
    intro x hx
    rcases allFinB_mem hf hx with ⟨q, rfl⟩
    simp [PF.div, hσ0, unfin]
  rw [hmap]
  have hf2 : allFinB (v.map (fun x =>
      PF.fin (unfin x / (v.map unfin).sum))) = true := by
    rw [allFinB, List.all_eq_true]
    intro b hb
    rcases List.mem_map.1 hb with ⟨x, hx, rfl⟩
    rfl
  rw [sum_eq_of_allFin hf2]
  congr 1
  rw [List.map_map]
  have hcomp : (unfin ∘ fun x => PF.fin (unfin x / (v.map unfin).sum))
      = fun x => unfin x / (v.map unfin).sum := by
    funext x
    rfl
  rw [hcomp, show (fun x => unfin x / (v.map unfin).sum)
        = (fun q => q / (v.map unfin).sum) ∘ unfin from rfl,
    ← List.map_map, sum_map_div, div_self hσ0]

/-! ## Finiteness and length invariants of the expansion stage -/

theorem allFinB_replicate (n : Nat) (q : ℚ) :
    allFinB (List.replicate n (PF.fin q)) = true := by
  rw [allFinB, List.all_eq_true]
  intro x hx
  rw [List.eq_of_mem_replicate hx]

theorem allFinB_meanVec : ∀ {x : List PF}, allFinB x = true →
    ∀ {y : List PF}, allFinB y = true → allFinB (meanVec x y) = true := by
  intro x
  induction x with
  | nil => intro _ y _; rfl
  | cons a rest ih =>
      intro hx y hy
      cases y with
      | nil => rfl
      | cons b ys =>
          cases a with
          | nonfin => simp [allFinB] at hx
          | fin p =>
              cases b with
              | nonfin => simp [allFinB] at hy
              | fin q =>
                  have hx' : allFinB rest = true := by
                    simpa [allFinB] using hx
                  have hy' : allFinB ys = true := by
                    simpa [allFinB] using hy
                  have h2 : ((2 : ℚ)) ≠ 0 := by norm_num
                  simpa [meanVec, allFinB, PF.add, PF.div, h2]
                    using ih hx' hy'

theorem meanVec_length (a b : List PF) :
    (meanVec a b).length = min a.length b.length := by
  simp [meanVec]

/-! ## Access to the expanded store -/

theorem getEntry_UOX {st : Store} {c kk : Nat × List PF} {xv : List PF}
    {k : List Char} (h1 : k ≠ ['U']) (h2 : k ≠ ['O']) (h3 : k ≠ ['X']) :
    (((st.setRef ['U'] c).setRef ['O'] kk).set ['X'] xv).getEntry k
      = st.getEntry k := by
  rw [getEntry_set_ne _ _ h3, getEntry_setRef_ne _ _ h2,
    getEntry_setRef_ne _ _ h1]

theorem expanded_getEntry_U (st : Store) (fc : Nat) (a : Bool)
    (c kk : Nat × List PF) (bv jv zv : List PF) :
    (expandedStore st fc a c kk bv jv zv).getEntry ['U'] = some c := by
  rw [expandedStore, getEntry_set_ne _ _ (by decide),
    getEntry_set_ne _ _ (by decide), getEntry_set_ne _ _ (by decide),
    getEntry_set_ne _ _ (by decide), getEntry_setRef_ne _ _ (by decide),
    getEntry_setRef_self]

theorem expanded_getEntry_O (st : Store) (fc : Nat) (a : Bool)
    (c kk : Nat × List PF) (bv jv zv : List PF) :
    (expandedStore st fc a c kk bv jv zv).getEntry ['O'] = some kk := by
  rw [expandedStore, getEntry_set_ne _ _ (by decide),
    getEntry_set_ne _ _ (by decide), getEntry_set_ne _ _ (by decide),
    getEntry_set_ne _ _ (by decide), getEntry_setRef_self]

theorem expanded_getV_X (st : Store) (fc : Nat) (a : Bool)
    (c kk : Nat × List PF) (bv jv zv : List PF) :
    (expandedStore st fc a c kk bv jv zv).getV ['X']
      = some (List.replicate fc
          (if a then PF.fin (1 / (fc : ℚ)) else PF.fin 0)) := by
  rw [expandedStore, getV_eq, getEntry_set_ne _ _ (by decide),
    getEntry_set_ne _ _ (by decide), getEntry_set_ne _ _ (by decide),
    getEntry_set_self]
  rfl

theorem expanded_getV_B (st : Store) (fc : Nat) (a : Bool)
    (c kk : Nat × List PF) (bv jv zv : List PF) :
    (expandedStore st fc a c kk bv jv zv).getV ['B'] = some bv := by
  rw [expandedStore, getV_eq, getEntry_set_ne _ _ (by decide),
    getEntry_set_ne _ _ (by decide), getEntry_set_self]
  rfl

theorem expanded_getV_J (st : Store) (fc : Nat) (a : Bool)
    (c kk : Nat × List PF) (bv jv zv : List PF) :
    (expandedStore st fc a c kk bv jv zv).getV ['J'] = some jv := by
  rw [expandedStore, getV_eq, getEntry_set_ne _ _ (by decide),
    getEntry_set_self]
  rfl

theorem expanded_getV_Z (st : Store) (fc : Nat) (a : Bool)
    (c kk : Nat × List PF) (bv jv zv : List PF) :
    (expandedStore st fc a c kk bv jv zv).getV ['Z'] = some zv := by
  rw [expandedStore, getV_eq, getEntry_set_self]
  rfl

theorem expanded_getEntry_other {k : List Char} (hU : k ≠ ['U'])
    (hO : k ≠ ['O']) (hX : k ≠ ['X']) (hB : k ≠ ['B']) (hJ : k ≠ ['J'])
    (hZ : k ≠ ['Z']) (st : Store) (fc : Nat) (a : Bool)
    (c kk : Nat × List PF) (bv jv zv : List PF) :
    (expandedStore st fc a c kk bv jv zv).getEntry k = st.getEntry k := by
  rw [expandedStore, getEntry_set_ne _ _ hZ, getEntry_set_ne _ _ hJ,
    getEntry_set_ne _ _ hB, getEntry_set_ne _ _ hX,
    getEntry_setRef_ne _ _ hO, getEntry_setRef_ne _ _ hU]

/-! ## Invariants of the expanded store -/

theorem storeAllFin_setRef {st : Store} {k : List Char}
    {av : Nat × List PF} (hP : storeAllFin st)
    (hv : allFinB av.2 = true) : storeAllFin (st.setRef k av) := by
  intro p hp
  rcases mem_dictSet hp with h | h
  · rw [h]; exact hv
  · exact hP p h

theorem wfKeys_expanded {st : Store} (h : st.wfKeys) (fc : Nat) (a : Bool)
    (c kk : Nat × List PF) (bv jv zv : List PF) :
    (expandedStore st fc a c kk bv jv zv).wfKeys := by
  rw [expandedStore]
  exact wfKeys_set _ _ (wfKeys_set _ _ (wfKeys_set _ _ (wfKeys_set _ _
    (wfKeys_setRef _ _ (wfKeys_setRef _ _ h)))))

theorem storeAllFin_expanded {st : Store} (hP : storeAllFin st)
    {fc : Nat} {a : Bool} {c kk : Nat × List PF} {bv jv zv : List PF}
    (hc : allFinB c.2 = true) (hk : allFinB kk.2 = true)
    (hb : allFinB bv = true) (hj : allFinB jv = true)
    (hz : allFinB zv = true) :
    storeAllFin (expandedStore st fc a c kk bv jv zv) := by
  rw [expandedStore]
  have hx : allFinB (List.replicate fc
      (if a then PF.fin (1 / (fc : ℚ)) else PF.fin 0)) = true := by
    cases a with
    | false => exact allFinB_replicate fc 0
    | true => exact allFinB_replicate fc (1 / (fc : ℚ))
  exact storeAllFin_set (storeAllFin_set (storeAllFin_set (storeAllFin_set
    (storeAllFin_setRef (storeAllFin_setRef hP hc) hk) hx) hb) hj) hz

/-- Finiteness of every entry of the expansion result. -/
theorem expand_allFin {st : Store} {fc : Nat} {a : Bool} {st2 : Store}
    (hP : storeAllFin st) (h : expandStage st fc a = Except.ok st2) :
    storeAllFin st2 := by
  obtain ⟨c, kk, dd, nn, ii, ll, ee, qq, hc, hkk, hdd, hnn, hii, hll,
    hee, hqq, hlen1, hlen2, hlen3, hfc, hres⟩ := expandStage_ok h
  have hfinOf : ∀ {k : List Char} {av : Nat × List PF},
      st.getEntry k = some av → allFinB av.2 = true := by
    intro k av hav
    exact hP (k, av) (mem_of_dictFind hav).1
  subst hres
  exact storeAllFin_expanded hP (hfinOf hc) (hfinOf hkk)
    (allFinB_meanVec (hfinOf hdd) (hfinOf hnn))
    (allFinB_meanVec (hfinOf hii) (hfinOf hll))
    (allFinB_meanVec (hfinOf hee) (hfinOf hqq))

/-- Well-formedness of the expansion result. -/
theorem expand_wf {st : Store} {fc : Nat} {a : Bool} {st2 : Store}
    (hw : st.wfKeys) (h : expandStage st fc a = Except.ok st2) :
    st2.wfKeys := by
  obtain ⟨c, kk, dd, nn, ii, ll, ee, qq, _, _, _, _, _, _, _, _, _, _, _,
    _, hres⟩ := expandStage_ok h
  subst hres
  exact wfKeys_expanded hw fc a c kk _ _ _

/-! ## Generic value predicates over stores -/

theorem storeVals_set {Q : List PF → Prop} {st : Store} {k : List Char}
    {v : List PF} (hP : ∀ p ∈ st.dict, Q p.2.2) (hv : Q v) :
    ∀ p ∈ (st.set k v).dict, Q p.2.2 := by
  intro p hp
  rcases mem_dictSet hp with h | h
  · rw [h]; exact hv
  · exact hP p h

theorem storeVals_setRef {Q : List PF → Prop} {st : Store} {k : List Char}
    {av : Nat × List PF} (hP : ∀ p ∈ st.dict, Q p.2.2) (hv : Q av.2) :
    ∀ p ∈ (st.setRef k av).dict, Q p.2.2 := by
  intro p hp
  rcases mem_dictSet hp with h | h
  · rw [h]; exact hv
  · exact hP p h

theorem storeVals_getV {Q : List PF → Prop} {st : Store}
    (hP : ∀ p ∈ st.dict, Q p.2.2) {k : List Char} {v : List PF}
    (h : st.getV k = some v) : Q v := by
  rw [Store.getV] at h
  cases hf : dictFind st.dict k with
  | none => rw [hf] at h; simp at h
  | some av =>
      rw [hf] at h
      have hv : av.2 = v := by simpa using h
      exact hv ▸ hP (k, av) (mem_of_dictFind hf).1

theorem storeAllFin_getV {st : Store} (hP : storeAllFin st)
    {k : List Char} {v : List PF} (h : st.getV k = some v) :
    allFinB v = true :=
  storeVals_getV (Q := fun w => allFinB w = true) hP h

theorem keys_length (st : Store) : st.keys.length = st.dict.length :=
  List.length_map _ _

theorem getAddr_set_ne (st : Store) {k k' : List Char} (v : List PF)
    (h : k' ≠ k) : (st.set k v).getAddr k' = st.getAddr k' := by
  simp [getAddr_eq, getEntry_set_ne st v h]

theorem helperStoreTrue (st2 : Store) :
    (if (true : Bool) then normalizeStore st2 else st2)
      = normalizeStore st2 := rfl

theorem helperStoreFalse (st2 : Store) :
    (if (false : Bool) then normalizeStore st2 else st2) = st2 := rfl

/-- Lookup in the final table through the optional normalisation and
the missing-marker assignment, for keys other than the marker. -/
theorem tblVal_of_st2 {st2 : Store} {n : Bool} {fc : Nat}
    (hwf : st2.wfKeys) {k : List Char} (hk : k ≠ MISSINGAA)
    {v : List PF} (hv : st2.getV k = some v) :
    ((if n then normalizeStore st2 else st2).set MISSINGAA
      (List.replicate fc (PF.fin 0))).getV k
      = some (if n then normEntry v else v) := by
  rw [getV_set_ne _ _ hk]
  cases n with
  | false => simpa using hv
  | true =>
      rw [helperStoreTrue, getV_normalizeStore hwf k, hv]
      rfl

/-! ## Claim C6 -/

/-- C6: in every successfully built table, whatever the `normalize`
and `average` flags, the missing-marker entry is exactly the all-zero
vector of length `feature_count`; it is bound after the normalisation
loop and is never divided. -/
theorem c6_missing_marker_zero {s : List Char} {n a : Bool}
    (hok : builtOk s n a = true) :
    helperVal s n a MISSINGAA
      = some (List.replicate (parsedFC s) (PF.fin 0)) := by
  unfold builtOk at hok
  split at hok
  next tbl htbl =>
    obtain ⟨p, st2, hp, he, -⟩ := helper_ok_decomp.1 htbl
    rw [helperVal_of_stages MISSINGAA hp he, getV_set_self]
    simp [parsedFC, hp]
  next e he => simp at hok

/-- C6 witness at the synthetic 20-row table. -/
theorem c6_missing_marker_zero_witness :
    builtOk stdChars true true = true ∧
    helperVal stdChars true true MISSINGAA
      = some (List.replicate (parsedFC stdChars) (PF.fin 0)) :=
  ⟨by with_unfolding_all decide,
   c6_missing_marker_zero (by with_unfolding_all decide)⟩

/-! ## Claim C8 -/

/-- C8: the `X` entry produced by the expansion stage (source lines
145-149, before any normalisation) is determined solely by the
`average` flag: the uniform vector `1/feature_count` when
`average=true`, the all-zero vector when `average=false`, in both
cases of length `feature_count`. -/
theorem c8_x_uniform_or_zero {s : List Char} {a : Bool}
    (hok : expandOk s a = true) :
    preNormVal s a ['X'] = some (List.replicate (parsedFC s)
      (if a then PF.fin (1 / (parsedFC s : ℚ)) else PF.fin 0)) := by
  unfold expandOk at hok
  split at hok
  next p hp =>
    split at hok
    next st2 he =>
      rw [preNormVal_of_stages ['X'] hp he]
      obtain ⟨c, kk, dd, nn, ii, ll, ee, qq, -, -, -, -, -, -, -, -, -, -,
        -, -, hres⟩ := expandStage_ok he
      subst hres
      rw [expanded_getV_X]
      simp [parsedFC, hp]
    next e he => simp at hok
  next e hp => simp at hok

/-- C8 witness: `average=true` build of the synthetic table. -/
theorem c8_x_uniform_or_zero_witness :
    preNormVal stdChars true ['X'] = some (List.replicate
      (parsedFC stdChars) (if true then
        PF.fin (1 / (parsedFC stdChars : ℚ)) else PF.fin 0)) :=
  c8_x_uniform_or_zero (by with_unfolding_all decide)

/-! ## Claim C1 -/

/-- C1 counterexample: with `normalize=true, average=false` on a
complete 8-residue table, the pre-marker `X` entry has component sum
exactly zero, yet construction does NOT abort: the helper returns a
table.  There is no `ZeroSumNormalization` failure anywhere in the
code; numpy division by a zero sum only emits a warning. -/
theorem c1_counterexample :
    (preNormVal req8Chars false ['X']).map PF.sum = some (PF.fin 0) ∧
    builtOk req8Chars true false = true := by
  with_unfolding_all decide

/-- C1 amended: when `normalize=true` meets an entry whose pre-marker
vector sums to zero, construction still succeeds and returns a table;
the offending entry is divided by zero and every one of its components
becomes non-finite (NaN/inf). -/
theorem c1_zero_sum_no_abort {s : List Char} {a : Bool} {k : List Char}
    {v : List PF} (hk : k ≠ MISSINGAA) (hv : preNormVal s a k = some v)
    (hz : PF.sum v = PF.fin 0) :
    builtOk s true a = true ∧
    helperVal s true a k = some (List.replicate v.length PF.nonfin) := by
  obtain ⟨p, st2, hp, he, hget⟩ := preNormVal_some hv
  obtain ⟨st0, fc0⟩ := p
  have hwf : st2.wfKeys := expand_wf (parseAll_wf hp) he
  refine ⟨builtOk_of_stages hp he, ?_⟩
  rw [helperVal_of_stages k hp he, tblVal_of_st2 hwf hk hget]
  rw [if_pos rfl, normEntry_zeroSum hz]

/-- C1 amended witness: the concrete zero-sum `X` of the 8-residue
table ends as a vector of non-finite components. -/
theorem c1_zero_sum_no_abort_witness :
    builtOk req8Chars true false = true ∧
    helperVal req8Chars true false ['X']
      = some (List.replicate ([PF.fin 0, PF.fin 0] : List PF).length
          PF.nonfin) :=
  c1_zero_sum_no_abort (by with_unfolding_all decide)
    (by with_unfolding_all decide) (by with_unfolding_all decide)

/-! ## Claim C5 -/

/-- C5 counterexample: a table built with `normalize=true` whose `X`
entry (not the missing marker) does not sum to 1 within 1e-5 — its
sum is NaN, because its pre-normalization sum was zero. -/
theorem c5_counterexample :
    builtOk req8Chars true false = true ∧
    (helperVal req8Chars true false ['X']).map sumNear1 = some false := by
  with_unfolding_all decide

/-- C5 amended: in a table built with `normalize=true`, every entry
except the missing marker whose pre-normalization vector has nonzero
sum has components summing to exactly 1 (hence within the 1e-5
tolerance); the zero-sum entries instead become entirely non-finite,
as established for C1. -/
theorem c5_normalized_sums {s : List Char} {a : Bool} {k : List Char}
    {v : List PF} (hk : k ≠ MISSINGAA) (hv : preNormVal s a k = some v)
    (hz : PF.sum v ≠ PF.fin 0) :
    (helperVal s true a k).map PF.sum = some (PF.fin 1) := by
  obtain ⟨p, st2, hp, he, hget⟩ := preNormVal_some hv
  obtain ⟨st0, fc0⟩ := p
  have hwf : st2.wfKeys := expand_wf (parseAll_wf hp) he
  have hfin : allFinB v = true :=
    storeAllFin_getV (expand_allFin (parseAll_allFin hp) he) hget
  rw [helperVal_of_stages k hp he, tblVal_of_st2 hwf hk hget, if_pos rfl]
  rw [Option.map_some', sum_normEntry_one hfin hz]

/-- C5 witness: entry `A` of the normalized synthetic table sums to
exactly 1. -/
theorem c5_normalized_sums_witness :
    (helperVal stdChars true true ['A']).map PF.sum
      = some (PF.fin 1) :=
  c5_normalized_sums (by with_unfolding_all decide)
    (v := [PF.fin 1, PF.fin 1]) (by with_unfolding_all decide)
    (by with_unfolding_all decide)

/-! ## Claim C2 -/

/-- C2 counterexample: with `normalize=false` (the `AANDXred` preset
configuration) the synonym entries are bound to the very same array
object as the standard entries — `d['U'] = d['C']` copies a reference,
so `U` and `C` share one address: the "no aliasing after construction"
part of the claim is false. -/
theorem c2_counterexample :
    helperAddr req8Chars false false ['U'] = some 0 ∧
    helperAddr req8Chars false false ['C'] = some 0 ∧
    helperAddr req8Chars false false ['O'] = some 1 ∧
    helperAddr req8Chars false false ['K'] = some 1 := by
  with_unfolding_all decide

/-- C2 amended: in every build (any flags, failed builds trivially),
`table[U]` equals `table[C]` and `table[O]` equals `table[K]`
element-wise by value; but when `normalize=false` the synonym entry is
the same array object as the standard entry (equal addresses), so the
synonyms alias rather than copy. -/
theorem c2_synonym_values_aliasing (s : List Char) (n a : Bool) :
    (helperVal s n a ['U'] = helperVal s n a ['C'] ∧
     helperVal s n a ['O'] = helperVal s n a ['K']) ∧
    (helperAddr s false a ['U'] = helperAddr s false a ['C'] ∧
     helperAddr s false a ['O'] = helperAddr s false a ['K']) := by
  constructor
  · cases hr : resToFeatureHelper s n a with
    | error e => simp [helperVal, hr]
    | ok tbl =>
        obtain ⟨p, st2, hp, he, -⟩ := helper_ok_decomp.1 hr
        obtain ⟨st0, fc0⟩ := p
        obtain ⟨c, kk, dd, nn, ii, ll, ee, qq, hc, hkk, -, -, -, -, -, -,
          -, -, -, -, hres⟩ := expandStage_ok he
        have hwf : st2.wfKeys := expand_wf (parseAll_wf hp) he
        have hU : st2.getV ['U'] = some c.2 := by
          rw [hres, getV_eq, expanded_getEntry_U]; rfl
        have hC : st2.getV ['C'] = some c.2 := by
          rw [hres, getV_eq, expanded_getEntry_other (by decide) (by decide)
            (by decide) (by decide) (by decide) (by decide), hc]; rfl
        have hO : st2.getV ['O'] = some kk.2 := by
          rw [hres, getV_eq, expanded_getEntry_O]; rfl
        have hK : st2.getV ['K'] = some kk.2 := by
          rw [hres, getV_eq, expanded_getEntry_other (by decide) (by decide)
            (by decide) (by decide) (by decide) (by decide), hkk]; rfl
        constructor
        · rw [helperVal_of_stages _ hp he, helperVal_of_stages _ hp he,
            tblVal_of_st2 hwf (by decide) hU, tblVal_of_st2 hwf (by decide) hC]
        · rw [helperVal_of_stages _ hp he, helperVal_of_stages _ hp he,
            tblVal_of_st2 hwf (by decide) hO, tblVal_of_st2 hwf (by decide) hK]
  · cases hr : resToFeatureHelper s false a with
    | error e => simp [helperAddr, hr]
    | ok tbl =>
        obtain ⟨p, st2, hp, he, -⟩ := helper_ok_decomp.1 hr
        obtain ⟨st0, fc0⟩ := p
        obtain ⟨c, kk, dd, nn, ii, ll, ee, qq, hc, hkk, -, -, -, -, -, -,
          -, -, -, -, hres⟩ := expandStage_ok he
        have hU : st2.getAddr ['U'] = some c.1 := by
          rw [hres, getAddr_eq, expanded_getEntry_U]; rfl
        have hC : st2.getAddr ['C'] = some c.1 := by
          rw [hres, getAddr_eq, expanded_getEntry_other (by decide)
            (by decide) (by decide) (by decide) (by decide) (by decide),
            hc]; rfl
        have hO : st2.getAddr ['O'] = some kk.1 := by
          rw [hres, getAddr_eq, expanded_getEntry_O]; rfl
        have hK : st2.getAddr ['K'] = some kk.1 := by
          rw [hres, getAddr_eq, expanded_getEntry_other (by decide)
            (by decide) (by decide) (by decide) (by decide) (by decide),
            hkk]; rfl
        constructor
        · rw [helperAddr_of_stages _ hp he, helperAddr_of_stages _ hp he,
            helperStoreFalse, getAddr_set_ne _ _ (by decide),
            getAddr_set_ne _ _ (by decide), hU, hC]
        · rw [helperAddr_of_stages _ hp he, helperAddr_of_stages _ hp he,
            helperStoreFalse, getAddr_set_ne _ _ (by decide),
            getAddr_set_ne _ _ (by decide), hO, hK]

/-! ## Claim C4 -/

/-- C4: in every successful build, `B`, `J`, `Z` are the elementwise
arithmetic means of the PARSED (pre-normalization) `D`/`N`, `I`/`L`,
`E`/`Q` vectors; the defined order is average first, then (when
`normalize=true`) normalise the averaged vector as a whole. -/
theorem c4_ambiguous_means {s : List Char} {n a : Bool}
    {d nv iv lv ev qv : List PF}
    (hD : parsedVal s ['D'] = some d) (hN : parsedVal s ['N'] = some nv)
    (hI : parsedVal s ['I'] = some iv) (hL : parsedVal s ['L'] = some lv)
    (hE : parsedVal s ['E'] = some ev) (hQ : parsedVal s ['Q'] = some qv)
    (hok : builtOk s n a = true) :
    helperVal s n a ['B']
      = some (if n then normEntry (meanVec d nv) else meanVec d nv) ∧
    helperVal s n a ['J']
      = some (if n then normEntry (meanVec iv lv) else meanVec iv lv) ∧
    helperVal s n a ['Z']
      = some (if n then normEntry (meanVec ev qv) else meanVec ev qv) := by
  unfold builtOk at hok
  split at hok
  next tbl htbl =>
    obtain ⟨p, st2, hp, he, -⟩ := helper_ok_decomp.1 htbl
    obtain ⟨st0, fc0⟩ := p
    obtain ⟨c, kk, dd, nn, ii, ll, ee, qq, hc, hkk, hdd, hnn, hii, hll,
      hee, hqq, -, -, -, -, hres⟩ := expandStage_ok he
    have hwf : st2.wfKeys := expand_wf (parseAll_wf hp) he
    have hval : ∀ (k : List Char) (w : List PF) (av : Nat × List PF),
        parsedVal s k = some w → st0.getEntry k = some av → w = av.2 := by
      intro k w av hw hav
      have hw2 : parsedVal s k = some av.2 := by
        simp only [parsedVal, hp]
        rw [getV_eq, hav]
        rfl
      exact Option.some.inj (hw.symm.trans hw2)
    have hB : st2.getV ['B'] = some (meanVec dd.2 nn.2) := by
      rw [hres, expanded_getV_B]
    have hJ : st2.getV ['J'] = some (meanVec ii.2 ll.2) := by
      rw [hres, expanded_getV_J]
    have hZ : st2.getV ['Z'] = some (meanVec ee.2 qq.2) := by
      rw [hres, expanded_getV_Z]
    refine ⟨?_, ?_, ?_⟩
    · rw [helperVal_of_stages _ hp he, tblVal_of_st2 hwf (by decide) hB,
        hval _ _ _ hD hdd, hval _ _ _ hN hnn]
    · rw [helperVal_of_stages _ hp he, tblVal_of_st2 hwf (by decide) hJ,
        hval _ _ _ hI hii, hval _ _ _ hL hll]
    · rw [helperVal_of_stages _ hp he, tblVal_of_st2 hwf (by decide) hZ,
        hval _ _ _ hE hee, hval _ _ _ hQ hqq]
  next e he => simp at hok

/-- C4 witness at the synthetic table: `B` is the normalized mean of
the parsed `D` and `N` rows, and likewise for `J` and `Z`. -/
theorem c4_ambiguous_means_witness :
    helperVal stdChars true true ['B']
      = some (if true then
          normEntry (meanVec [PF.fin 1, PF.fin 1] [PF.fin 1, PF.fin 3])
          else meanVec [PF.fin 1, PF.fin 1] [PF.fin 1, PF.fin 3]) ∧
    helperVal stdChars true true ['J']
      = some (if true then
          normEntry (meanVec [PF.fin 2, PF.fin 2] [PF.fin 2, PF.fin 0])
          else meanVec [PF.fin 2, PF.fin 2] [PF.fin 2, PF.fin 0]) ∧
    helperVal stdChars true true ['Z']
      = some (if true then
          normEntry (meanVec [PF.fin 1, PF.fin 1] [PF.fin 3, PF.fin 1])
          else meanVec [PF.fin 1, PF.fin 1] [PF.fin 3, PF.fin 1]) :=
  c4_ambiguous_means (by with_unfolding_all decide)
    (by with_unfolding_all decide) (by with_unfolding_all decide)
    (by with_unfolding_all decide) (by with_unfolding_all decide)
    (by with_unfolding_all decide) (by with_unfolding_all decide)

/-! ## Claim C9 -/

/-- C9: the parse loop runs top to bottom and a later data line for
the same residue letter overwrites the earlier binding (dict
assignment replaces in place): appending a data line for `aa` makes
the final mapping carry that line's freshly parsed vector at `aa`,
whatever `aa` was bound to before, and leaves every other key
unchanged. -/
theorem c9_last_write_wins (ls : List (List Char)) (st : Store) (fc : Nat)
    (hp : parseAll ls = Except.ok (st, fc)) (line : List Char) (c : Char)
    (cs : List Char) (hline : line = c :: cs) (hc : c ≠ '#')
    (aa : List Char) (toks : List (List Char))
    (hsplit : pySplit line = aa :: toks) (vals : List PF)
    (hvals : parseFloats toks = Except.ok vals) :
    parseAll (ls ++ [line]) = Except.ok (st.set aa vals, vals.length) ∧
    (st.set aa vals).getV aa = some vals ∧
    ∀ k, k ≠ aa → (st.set aa vals).getV k = st.getV k := by
  refine ⟨?_, getV_set_self st aa vals, fun k hk => getV_set_ne st vals hk⟩
  subst hline
  unfold parseAll at hp ⊢
  rw [foldParse_append, hp]
  simp only [Bind.bind, Except.bind, List.foldlM, parseLine, hc, if_false,
    hsplit, hvals]
  rfl

/-- C9 witness: two lines both keyed `A`; the resulting mapping binds
`A` to the second line's vector `[3, 4]`. -/
theorem c9_last_write_wins_witness :
    parseAll (splitLines "A 1 2\n".data ++ [('A' :: " 3 4".data)])
      = Except.ok ((⟨1, [(['A'], 0, [PF.fin 1, PF.fin 2])]⟩ : Store).set
          ['A'] [PF.fin 3, PF.fin 4], 2) ∧
    ((⟨1, [(['A'], 0, [PF.fin 1, PF.fin 2])]⟩ : Store).set
        ['A'] [PF.fin 3, PF.fin 4]).getV ['A']
      = some [PF.fin 3, PF.fin 4] := by
  have h := c9_last_write_wins (splitLines "A 1 2\n".data)
    ⟨1, [(['A'], 0, [PF.fin 1, PF.fin 2])]⟩ 2
    (by with_unfolding_all decide) ('A' :: " 3 4".data) 'A' " 3 4".data
    rfl (by decide) ['A'] [['3'], ['4']] (by with_unfolding_all decide)
    [PF.fin 3, PF.fin 4] (by with_unfolding_all decide)
  exact ⟨h.1, h.2.1⟩

/-! ## Claim C10 -/

/-- C10: a feature string containing an empty or whitespace-only line
(whose first character is therefore not `#`) makes the helper raise an
exception — `linearr[0]` indexes an empty token list — instead of
skipping the line; only lines starting with `#` are skipped.  (An
empty line of the text reaches the loop as a bare newline, which is
whitespace-only; line iteration never yields a zero-length string.) -/
theorem c10_blank_line_error {s : List Char} {n a : Bool}
    {l : List Char} (hmem : l ∈ splitLines s) (hne : l ≠ [])
    (hsp : l.all isPySpace = true) :
    builtOk s n a = false := by
  have hsp' : ∀ c ∈ l, isPySpace c = true :=
    fun c hc => List.all_eq_true.1 hsp c hc
  obtain ⟨e, he⟩ := foldParse_blank hne hsp' (splitLines s) hmem (⟨0, []⟩, 0)
  have hhelper : resToFeatureHelper s n a = Except.error e := by
    rw [resToFeatureHelper]
    exact exBind_error he
  simp [builtOk, hhelper]

/-- C10 witness: the whitespace-only line of `blankLineStr` makes the
build fail even though all residues needed later are present. -/
theorem c10_blank_line_error_witness :
    builtOk blankChars true true = false :=
  c10_blank_line_error (l := [' ', ' ', ' ', '\n'])
    (by with_unfolding_all decide) (by decide) (by decide)

/-! ## Claim C3 -/

/-- C3 counterexample: an 8-row raw table (just the residues the
expansion needs) builds successfully, but the resulting table has 15
entries, not 27 — the claim's "every successfully built table"
over-generalises from the embedded 20-row presets. -/
theorem c3_counterexample :
    helperSize req8Chars false false = some 15 := by
  with_unfolding_all decide

/-- C3 amended: when the parsed rows are exactly the 20 standard
residue codes (in any order) and every row has `feature_count` fields,
every successfully built table has exactly 27 entries — the 20
standard codes plus `U`, `O`, `X`, `B`, `J`, `Z` and the missing
marker — and every entry has length `feature_count`. -/
theorem c3_std20_table_shape {s : List Char} {n a : Bool}
    (hkeys : (parsedKeys s).Perm STD20)
    (hlens : parsedLensUniform s = true)
    (hok : builtOk s n a = true) :
    helperSize s n a = some 27 ∧ builtLensUniform s n a = true := by
  unfold builtOk at hok
  split at hok
  next tbl htbl =>
    obtain ⟨p, st2, hp, he, htblEq⟩ := helper_ok_decomp.1 htbl
    obtain ⟨st0, fc0⟩ := p
    obtain ⟨c, kk, dd, nn, ii, ll, ee, qq, hc, hkk, hdd, hnn, hii, hll,
      hee, hqq, -, -, -, -, hres⟩ := expandStage_ok he
    have hwf0 : st0.wfKeys := parseAll_wf hp
    have hwf2 : st2.wfKeys := expand_wf hwf0 he
    simp only [parsedKeys, hp] at hkeys
    have hmem : ∀ k : List Char, k ∈ st0.keys ↔ k ∈ STD20 :=
      fun k => hkeys.mem_iff
    have hlensAll : ∀ q ∈ st0.dict, q.2.2.length = fc0 := by
      simp only [parsedLensUniform, hp] at hlens
      intro q hq
      have := List.all_eq_true.1 hlens q hq
      simpa using this
    have hcl : c.2.length = fc0 := hlensAll _ (mem_of_dictFind hc).1
    have hkl : kk.2.length = fc0 := hlensAll _ (mem_of_dictFind hkk).1
    have hddl : dd.2.length = fc0 := hlensAll _ (mem_of_dictFind hdd).1
    have hnnl : nn.2.length = fc0 := hlensAll _ (mem_of_dictFind hnn).1
    have hiil : ii.2.length = fc0 := hlensAll _ (mem_of_dictFind hii).1
    have hlll : ll.2.length = fc0 := hlensAll _ (mem_of_dictFind hll).1
    have heel : ee.2.length = fc0 := hlensAll _ (mem_of_dictFind hee).1
    have hqql : qq.2.length = fc0 := hlensAll _ (mem_of_dictFind hqq).1
    have hU : (['U'] : List Char) ∉ st0.keys := by
      simp only [hmem]
      decide
    have hO1 : (['O'] : List Char) ∉ st0.keys ++ [['U']] := by
      simp only [List.mem_append, List.mem_singleton, hmem]
      decide
    have hX1 : (['X'] : List Char) ∉ st0.keys ++ [['U']] ++ [['O']] := by
      simp only [List.mem_append, List.mem_singleton, hmem]
      decide
    have hB1 : (['B'] : List Char)
        ∉ st0.keys ++ [['U']] ++ [['O']] ++ [['X']] := by
      simp only [List.mem_append, List.mem_singleton, hmem]
      decide
    have hJ1 : (['J'] : List Char)
        ∉ st0.keys ++ [['U']] ++ [['O']] ++ [['X']] ++ [['B']] := by
      simp only [List.mem_append, List.mem_singleton, hmem]
      decide
    have hZ1 : (['Z'] : List Char)
        ∉ st0.keys ++ [['U']] ++ [['O']] ++ [['X']] ++ [['B']]
          ++ [['J']] := by
      simp only [List.mem_append, List.mem_singleton, hmem]
      decide
    have hkeys2 : st2.keys = st0.keys ++ [['U']] ++ [['O']] ++ [['X']]
        ++ [['B']] ++ [['J']] ++ [['Z']] := by
      rw [hres, expandedStore, keys_set, keys_set, keys_set, keys_set,
        keys_setRef, keys_setRef, if_neg hU, if_neg hO1, if_neg hX1,
        if_neg hB1, if_neg hJ1, if_neg hZ1]
    have hdot2 : MISSINGAA ∉ st2.keys := by
      rw [hkeys2]
      simp only [MISSINGAA, List.mem_append, List.mem_singleton, hmem]
      decide
    have hNkeys : (if n then normalizeStore st2 else st2).keys
        = st2.keys := by
      cases n with
      | false => rfl
      | true => exact keys_normalizeStore st2
    have htkeys : tbl.keys = st2.keys ++ [MISSINGAA] := by
      rw [htblEq, keys_set, hNkeys, if_neg hdot2]
    have h20 : st0.keys.length = 20 := by
      rw [hkeys.length_eq]
      rfl
    have hlen27 : tbl.dict.length = 27 := by
      rw [← keys_length, htkeys, hkeys2]
      simp [List.length_append, h20]
    have hlensSt2 : ∀ q ∈ st2.dict, q.2.2.length = fc0 := by
      rw [hres, expandedStore]
      refine storeVals_set (Q := fun w => w.length = fc0)
        (storeVals_set (Q := fun w => w.length = fc0)
        (storeVals_set (Q := fun w => w.length = fc0)
        (storeVals_set (Q := fun w => w.length = fc0)
        (storeVals_setRef (Q := fun w => w.length = fc0)
        (storeVals_setRef (Q := fun w => w.length = fc0) hlensAll hcl) hkl)
        ?_) ?_) ?_) ?_
      · simp
      · show (meanVec dd.2 nn.2).length = fc0
        rw [meanVec_length, hddl, hnnl, Nat.min_self]
      · show (meanVec ii.2 ll.2).length = fc0
        rw [meanVec_length, hiil, hlll, Nat.min_self]
      · show (meanVec ee.2 qq.2).length = fc0
        rw [meanVec_length, heel, hqql, Nat.min_self]
    have hlensTbl : ∀ q ∈ tbl.dict, q.2.2.length = fc0 := by
      rw [htblEq]
      refine storeVals_set (Q := fun w => w.length = fc0) ?_ (by simp)
      cases n with
      | false => exact hlensSt2
      | true =>
          intro q hq
          obtain ⟨v, hv, hq2⟩ := mem_normalizeStore hwf2 hq
          rw [hq2, normEntry_length]
          exact storeVals_getV (Q := fun w => w.length = fc0) hlensSt2 hv
    constructor
    · simp only [helperSize, htbl, hlen27]
    · simp only [builtLensUniform, htbl, parsedFC, hp, List.all_eq_true]
      intro q hq
      simpa using hlensTbl q hq
  next e he => simp at hok

/-- C3 amended witness at the synthetic 20-row, 2-feature table. -/
theorem c3_std20_table_shape_witness :
    helperSize stdChars true true = some 27 ∧
    builtLensUniform stdChars true true = true :=
  c3_std20_table_shape
    (by
      rw [show parsedKeys stdChars = STD20 from by with_unfolding_all decide])
    (by with_unfolding_all decide) (by with_unfolding_all decide)

/-! ## Claim C7 -/

/-- The `B`/`J`/`Z` assignments raise `KeyError r` when the incoming
store lacks the constituent residue `r` but holds the ones looked up
before it, all of one length (so the earlier means succeed). -/
theorem expandTail_missing {st3 : Store} (fc : Nat) {r : List Char}
    (hr : r ∈ [(['D'] : List Char), ['N'], ['I'], ['L'], ['E'], ['Q']])
    (habs : st3.getEntry r = none)
    (hoth : ∀ x ∈ [(['D'] : List Char), ['N'], ['I'], ['L'], ['E'], ['Q']],
      x ≠ r → ∃ av, st3.getEntry x = some av)
    (hlen : ∀ (x : List Char) (av : Nat × List PF),
      st3.getEntry x = some av → av.2.length = fc) :
    expandTail st3 = Except.error (Err.keyError r) := by
  fin_cases hr
  · rw [expandTail, lookupE_error_of_none habs]
    rfl
  · obtain ⟨dd, hdd⟩ := hoth ['D'] (by decide) (by decide)
    rw [expandTail, lookupE_ok.2 hdd]
    simp only [Bind.bind, Except.bind]
    rw [lookupE_error_of_none habs]
  · obtain ⟨dd, hdd⟩ := hoth ['D'] (by decide) (by decide)
    obtain ⟨nn, hnn⟩ := hoth ['N'] (by decide) (by decide)
    rw [expandTail, lookupE_ok.2 hdd]
    simp only [Bind.bind, Except.bind]
    rw [lookupE_ok.2 hnn]
    simp only [Bind.bind, Except.bind]
    rw [npMean2, if_pos (by rw [hlen _ _ hdd, hlen _ _ hnn])]
    simp only [Bind.bind, Except.bind]
    rw [lookupE_error_of_none
      (by rw [getEntry_set_ne _ _ (by decide)]; exact habs)]
  · obtain ⟨dd, hdd⟩ := hoth ['D'] (by decide) (by decide)
    obtain ⟨nn, hnn⟩ := hoth ['N'] (by decide) (by decide)
    obtain ⟨ii, hii⟩ := hoth ['I'] (by decide) (by decide)
    rw [expandTail, lookupE_ok.2 hdd]
    simp only [Bind.bind, Except.bind]
    rw [lookupE_ok.2 hnn]
    simp only [Bind.bind, Except.bind]
    rw [npMean2, if_pos (by rw [hlen _ _ hdd, hlen _ _ hnn])]
    simp only [Bind.bind, Except.bind]
    rw [lookupE_ok.2 (show (st3.set ['B'] (meanVec dd.2 nn.2)).getEntry
        ['I'] = some ii by
      rw [getEntry_set_ne _ _ (by decide)]; exact hii)]
    simp only [Bind.bind, Except.bind]
    rw [lookupE_error_of_none
      (by rw [getEntry_set_ne _ _ (by decide)]; exact habs)]
  · obtain ⟨dd, hdd⟩ := hoth ['D'] (by decide) (by decide)
    obtain ⟨nn, hnn⟩ := hoth ['N'] (by decide) (by decide)
    obtain ⟨ii, hii⟩ := hoth ['I'] (by decide) (by decide)
    obtain ⟨ll, hll⟩ := hoth ['L'] (by decide) (by decide)
    rw [expandTail, lookupE_ok.2 hdd]
    simp only [Bind.bind, Except.bind]
    rw [lookupE_ok.2 hnn]
    simp only [Bind.bind, Except.bind]
    rw [npMean2, if_pos (by rw [hlen _ _ hdd, hlen _ _ hnn])]
    simp only [Bind.bind, Except.bind]
    rw [lookupE_ok.2 (show (st3.set ['B'] (meanVec dd.2 nn.2)).getEntry
        ['I'] = some ii by
      rw [getEntry_set_ne _ _ (by decide)]; exact hii)]
    simp only [Bind.bind, Except.bind]
    rw [lookupE_ok.2 (show (st3.set ['B'] (meanVec dd.2 nn.2)).getEntry
        ['L'] = some ll by
      rw [getEntry_set_ne _ _ (by decide)]; exact hll)]
    simp only [Bind.bind, Except.bind]
    rw [npMean2, if_pos (by rw [hlen _ _ hii, hlen _ _ hll])]
    simp only [Bind.bind, Except.bind]
    rw [lookupE_error_of_none
      (by rw [getEntry_set_ne _ _ (by decide),
        getEntry_set_ne _ _ (by decide)]; exact habs)]
  · obtain ⟨dd, hdd⟩ := hoth ['D'] (by decide) (by decide)
    obtain ⟨nn, hnn⟩ := hoth ['N'] (by decide) (by decide)
    obtain ⟨ii, hii⟩ := hoth ['I'] (by decide) (by decide)
    obtain ⟨ll, hll⟩ := hoth ['L'] (by decide) (by decide)
    obtain ⟨ee, hee⟩ := hoth ['E'] (by decide) (by decide)
    rw [expandTail, lookupE_ok.2 hdd]
    simp only [Bind.bind, Except.bind]
    rw [lookupE_ok.2 hnn]
    simp only [Bind.bind, Except.bind]
    rw [npMean2, if_pos (by rw [hlen _ _ hdd, hlen _ _ hnn])]
    simp only [Bind.bind, Except.bind]
    rw [lookupE_ok.2 (show (st3.set ['B'] (meanVec dd.2 nn.2)).getEntry
        ['I'] = some ii by
      rw [getEntry_set_ne _ _ (by decide)]; exact hii)]
    simp only [Bind.bind, Except.bind]
    rw [lookupE_ok.2 (show (st3.set ['B'] (meanVec dd.2 nn.2)).getEntry
        ['L'] = some ll by
      rw [getEntry_set_ne _ _ (by decide)]; exact hll)]
    simp only [Bind.bind, Except.bind]
    rw [npMean2, if_pos (by rw [hlen _ _ hii, hlen _ _ hll])]
    simp only [Bind.bind, Except.bind]
    rw [lookupE_ok.2 (show ((st3.set ['B'] (meanVec dd.2 nn.2)).set ['J']
        (meanVec ii.2 ll.2)).getEntry ['E'] = some ee by
      rw [getEntry_set_ne _ _ (by decide),
        getEntry_set_ne _ _ (by decide)]; exact hee)]
    simp only [Bind.bind, Except.bind]
    rw [lookupE_error_of_none
      (by rw [getEntry_set_ne _ _ (by decide),
        getEntry_set_ne _ _ (by decide)]; exact habs)]

/-- Lifts `expandTail_missing` through the `U`, `O`, `X` assignments,
resolving the `average` branch. -/
theorem expandStageUOX_missing {st : Store} {fc : Nat} {a : Bool}
    {c kk : Nat × List PF} {r : List Char}
    (hc : st.getEntry ['C'] = some c) (hkk : st.getEntry ['K'] = some kk)
    (hr : r ∈ [(['D'] : List Char), ['N'], ['I'], ['L'], ['E'], ['Q']])
    (habs : st.getEntry r = none)
    (hoth : ∀ x ∈ [(['D'] : List Char), ['N'], ['I'], ['L'], ['E'], ['Q']],
      x ≠ r → ∃ av, st.getEntry x = some av)
    (hlens : ∀ (x : List Char) (av : Nat × List PF),
      st.getEntry x = some av → av.2.length = fc)
    (hfc : a = true → fc ≠ 0) :
    expandStage st fc a = Except.error (Err.keyError r) := by
  have htail : ∀ xv : List PF, xv.length = fc →
      expandTail (((st.setRef ['U'] c).setRef ['O'] kk).set ['X'] xv)
        = Except.error (Err.keyError r) := by
    intro xv hxv
    have htrans : ∀ x ∈ [(['D'] : List Char), ['N'], ['I'], ['L'], ['E'],
        ['Q']], (((st.setRef ['U'] c).setRef ['O'] kk).set ['X']
          xv).getEntry x = st.getEntry x := by
      intro x hx
      fin_cases hx <;>
        exact getEntry_UOX (by decide) (by decide) (by decide)
    refine expandTail_missing fc hr ?_ ?_ ?_
    · rw [htrans r hr]; exact habs
    · intro x hx hne
      rw [htrans x hx]
      exact hoth x hx hne
    · intro x av hx
      by_cases hxX : x = ['X']
      · subst hxX
        rw [getEntry_set_self] at hx
        injection hx with hx
        rw [← hx]
        exact hxv
      · rw [getEntry_set_ne _ _ hxX] at hx
        by_cases hxO : x = ['O']
        · subst hxO
          rw [getEntry_setRef_self] at hx
          injection hx with hx
          rw [← hx]
          exact hlens _ _ hkk
        · rw [getEntry_setRef_ne _ _ hxO] at hx
          by_cases hxU : x = ['U']
          · subst hxU
            rw [getEntry_setRef_self] at hx
            injection hx with hx
            rw [← hx]
            exact hlens _ _ hc
          · rw [getEntry_setRef_ne _ _ hxU] at hx
            exact hlens _ _ hx
  rw [expandStage, lookupE_ok.2 hc]
  simp only [Bind.bind, Except.bind]
  rw [lookupE_ok.2 (show (st.setRef ['U'] c).getEntry ['K'] = some kk by
    rw [getEntry_setRef_ne _ _ (by decide)]; exact hkk)]
  simp only [Bind.bind, Except.bind]
  cases a with
  | false =>
      rw [if_neg Bool.false_ne_true]
      exact htail _ (by simp)
  | true =>
      rw [if_pos rfl, if_neg (hfc rfl)]
      exact htail _ (by simp)

/-- C7: if the parsed base mapping (with rows of uniform length, and a
nonzero `feature_count` when `average=true`) lacks exactly one of the
residues `C K D N I L E Q`, construction fails with a `KeyError`
naming that residue, and no table is returned. -/
theorem c7_missing_base_residue {s : List Char} {n a : Bool}
    {r : List Char} (hr : r ∈ REQ8) (hpok : parsedOk s = true)
    (habs : r ∉ parsedKeys s)
    (hoth : ∀ x ∈ REQ8, x ≠ r → x ∈ parsedKeys s)
    (hlens : parsedLensUniform s = true)
    (hfc : a = true → parsedFC s ≠ 0) :
    helperErr s n a = some (Err.keyError r) := by
  unfold parsedOk at hpok
  split at hpok
  next p hp =>
    obtain ⟨st0, fc0⟩ := p
    simp only [parsedKeys, hp] at habs hoth
    simp only [parsedFC, hp] at hfc
    have hlensAll : ∀ (x : List Char) (av : Nat × List PF),
        st0.getEntry x = some av → av.2.length = fc0 := by
      intro x av hx
      simp only [parsedLensUniform, hp] at hlens
      have := List.all_eq_true.1 hlens (x, av) (mem_of_dictFind hx).1
      simpa using this
    have habsE : st0.getEntry r = none := dictFind_eq_none habs
    have hget : ∀ x ∈ REQ8, x ≠ r → ∃ av, st0.getEntry x = some av :=
      fun x hx hne => dictFind_isSome_of_mem (hoth x hx hne)
    have hexp : expandStage st0 fc0 a = Except.error (Err.keyError r) := by
      fin_cases hr
      · rw [expandStage, lookupE_error_of_none habsE]
        rfl
      · obtain ⟨c, hc⟩ := hget ['C'] (by decide) (by decide)
        rw [expandStage, lookupE_ok.2 hc]
        simp only [Bind.bind, Except.bind]
        rw [lookupE_error_of_none
          (by rw [getEntry_setRef_ne _ _ (by decide)]; exact habsE)]
      · obtain ⟨c, hc⟩ := hget ['C'] (by decide) (by decide)
        obtain ⟨kk, hkk⟩ := hget ['K'] (by decide) (by decide)
        exact expandStageUOX_missing hc hkk (by decide) habsE
          (fun x hx hne => hget x (by fin_cases hx <;> decide) hne)
          hlensAll hfc
      · obtain ⟨c, hc⟩ := hget ['C'] (by decide) (by decide)
        obtain ⟨kk, hkk⟩ := hget ['K'] (by decide) (by decide)
        exact expandStageUOX_missing hc hkk (by decide) habsE
          (fun x hx hne => hget x (by fin_cases hx <;> decide) hne)
          hlensAll hfc
      · obtain ⟨c, hc⟩ := hget ['C'] (by decide) (by decide)
        obtain ⟨kk, hkk⟩ := hget ['K'] (by decide) (by decide)
        exact expandStageUOX_missing hc hkk (by decide) habsE
          (fun x hx hne => hget x (by fin_cases hx <;> decide) hne)
          hlensAll hfc
      · obtain ⟨c, hc⟩ := hget ['C'] (by decide) (by decide)
        obtain ⟨kk, hkk⟩ := hget ['K'] (by decide) (by decide)
        exact expandStageUOX_missing hc hkk (by decide) habsE
          (fun x hx hne => hget x (by fin_cases hx <;> decide) hne)
          hlensAll hfc
      · obtain ⟨c, hc⟩ := hget ['C'] (by decide) (by decide)
        obtain ⟨kk, hkk⟩ := hget ['K'] (by decide) (by decide)
        exact expandStageUOX_missing hc hkk (by decide) habsE
          (fun x hx hne => hget x (by fin_cases hx <;> decide) hne)
          hlensAll hfc
      · obtain ⟨c, hc⟩ := hget ['C'] (by decide) (by decide)
        obtain ⟨kk, hkk⟩ := hget ['K'] (by decide) (by decide)
        exact expandStageUOX_missing hc hkk (by decide) habsE
          (fun x hx hne => hget x (by fin_cases hx <;> decide) hne)
          hlensAll hfc
    have hrun : resToFeatureHelper s n a
        = Except.error (Err.keyError r) := by
      rw [resToFeatureHelper]
      simp only [hp, Bind.bind, Except.bind, hexp]
    simp [helperErr, hrun]
  next e hp => simp at hpok

/-- C7 witness: dropping row `Q` from an otherwise complete table
fails with `KeyError` naming `Q`. -/
theorem c7_missing_base_residue_witness :
    helperErr missingQChars true true = some (Err.keyError ['Q']) :=
  c7_missing_base_residue (r := ['Q']) (by decide)
    (by with_unfolding_all decide) (by with_unfolding_all decide)
    (by with_unfolding_all decide) (by with_unfolding_all decide)
    (by with_unfolding_all decide)

end Protmodel
